import Mathlib

/-!
Shallow embedding of the namespaced key-value storage engine implemented in
`src/storage/sqlite.ts` (class `SQLiteKV`).  The SQLite table `kv` is modelled
as a list of rows; `Date.now()` becomes an explicit `now : Nat` argument
(epoch milliseconds); each operation returns its result together with the
post-state, so the lazy-expiration side effects of `get` are visible.
External runtime facilities used by the source (`JSON.stringify`/`JSON.parse`
and the `value as Buffer` casts) are modelled by an explicit codec record;
the base64 cursor codec (`Buffer.from(key).toString('base64')` /
`Buffer.from(cursor, 'base64').toString('utf-8')`) is implemented concretely,
with Node's lenient base64 decoding.
-/

namespace KVModel

/-- One row of the `kv` table:
`(ns, key, value BLOB, content_type, version, expires_at NULL-able, updated_at)`.
The BLOB payload is modelled as a `String` of bytes. -/
structure Entry where
  ns : String
  key : String
  value : String
  contentType : String
  version : Nat
  expiresAt : Option Nat
  updatedAt : Nat
deriving DecidableEq, Repr

/-- The `kv` table: a bag of rows.  The `PRIMARY KEY (ns, key)` uniqueness is
the separate invariant `WF`. -/
abbrev Store := List Entry

/-- `expires_at IS NOT NULL AND expires_at <= now` — the expiry test used by
every expiration check in the source (inclusive boundary). -/
def Entry.expired (e : Entry) (now : Nat) : Bool :=
  match e.expiresAt with
  | some t => decide (t ≤ now)
  | none => false

/-- Point lookup `SELECT ... WHERE ns = ? AND key = ?` (unique row under `WF`). -/
def findEntry (st : Store) (ns key : String) : Option Entry :=
  st.find? (fun e => e.ns == ns && e.key == key)

/-- `#cleanupExpired`: `DELETE FROM kv WHERE ns = ? AND key = ? AND
expires_at IS NOT NULL AND expires_at <= ?`. -/
def cleanupExpired (ns key : String) (now : Nat) (st : Store) : Store :=
  st.filter (fun e => !(e.ns == ns && e.key == key && e.expired now))

/-- The live (non-expired) rows at instant `now`: the reader-visible content
of the table. -/
def liveView (now : Nat) (st : Store) : Store :=
  st.filter (fun e => !e.expired now)

/-- `PRIMARY KEY (ns, key)`: no two rows share a namespace and key. -/
def WF (st : Store) : Prop :=
  st.Pairwise (fun a b => a.ns ≠ b.ns ∨ a.key ≠ b.key)

/-- The JavaScript-runtime value facilities used by the source for payloads of
type `α`: `JSON.stringify`, `JSON.parse`, the `value as Buffer` cast on the
write path and the `row.value as T` cast on the read path. -/
structure JsCodec (α : Type) where
  stringify : α → String
  parse : String → α
  asBuffer : α → String
  ofBuffer : String → α

/-- The identity codec on raw byte-strings (used to instantiate theorems at
concrete inputs). -/
def idCodec : JsCodec String := ⟨id, id, id, id⟩

/-- `GetOptions` of `src/storage/kv.ts` (`contentType` filter). -/
structure GetOptions where
  contentType : Option String := none
deriving DecidableEq, Repr

/-- `SetOptions` of `src/storage/kv.ts` (`ttl` seconds, `contentType`, `cas`). -/
structure SetOptions where
  ttl : Option Nat := none
  contentType : Option String := none
  cas : Option Nat := none
deriving DecidableEq, Repr

/-- `ValueMetadata` of `src/storage/kv.ts`. -/
structure ValueMetadata where
  version : Nat
  expiresAt : Option Nat
  updatedAt : Nat
  contentType : String
deriving DecidableEq, Repr

/-- `GetResult` of `src/storage/kv.ts`. -/
structure GetResult (α : Type) where
  value : α
  metadata : ValueMetadata
deriving DecidableEq, Repr

/-- The distinct failure exits of the embedded operations.  The source throws
`Error` objects with distinct messages (`CAS failed: key ... does not exist`,
`CAS failed: version mismatch`, `CAS failed: concurrent update detected`) and
`list` can raise a `TypeError` from `Buffer.from(undefined)`; the constructors
mirror those four throw sites. -/
inductive KVError where
  | casKeyAbsent
  | casVersionMismatch
  | casConcurrentUpdate
  | cursorTypeError
deriving DecidableEq, Repr

instance {ε α : Type} [DecidableEq ε] [DecidableEq α] : DecidableEq (Except ε α)
  | .ok a, .ok b => decidable_of_iff (a = b) (by simp)
  | .error a, .error b => decidable_of_iff (a = b) (by simp)
  | .ok _, .error _ => isFalse (by simp)
  | .error _, .ok _ => isFalse (by simp)

/-- `SQLiteKV.get`: lazy cleanup of the addressed key, point lookup,
JS-truthy `options?.contentType` filter, then JSON parse or raw Buffer
return depending on the stored `content_type`.  Returns the result together
with the post-state (the cleanup is a visible side effect). -/
def get {α : Type} (J : JsCodec α) (ns key : String) (opts : GetOptions)
    (now : Nat) (st : Store) : Option (GetResult α) × Store :=
  let st1 := cleanupExpired ns key now st
  match findEntry st1 ns key with
  | none => (none, st1)
  | some row =>
    let ctFilter := opts.contentType.getD ""
    if ctFilter ≠ "" && row.contentType != ctFilter then
      (none, st1)
    else
      let value := if row.contentType == "application/json" then J.parse row.value
                   else J.ofBuffer row.value
      (some ⟨value, ⟨row.version, row.expiresAt, row.updatedAt, row.contentType⟩⟩, st1)

/-- `const expiresAt = ttl ? now + ttl * 1000 : null` (a `ttl` of `0` is
falsy in JavaScript, so it means "no expiration"). -/
def ttlExpiry (ttl : Option Nat) (now : Nat) : Option Nat :=
  match ttl with
  | some t => if t == 0 then none else some (now + t * 1000)
  | none => none

/-- Serialization on the write path: `JSON.stringify` for
`'application/json'`, otherwise the `value as Buffer` cast. -/
def serializeVal {α : Type} (J : JsCodec α) (contentType : String) (v : α) : String :=
  if contentType == "application/json" then J.stringify v else J.asBuffer v

/-- `SQLiteKV.set`.  With `cas`: re-read through `get` (which lazily deletes
an expired target row), fail if absent or version-mismatched, else run the
conditional `UPDATE ... WHERE ns = ? AND key = ? AND version = ?` and fail if
it changed zero rows.  Without `cas`: `INSERT ... VALUES (..., 1, ...) ON
CONFLICT(ns, key) DO UPDATE SET ... version = version + 1 ... RETURNING
version`.  A thrown error is an `Except.error` paired with the state the
operation had already produced. -/
def set {α : Type} (J : JsCodec α) (ns key : String) (v : α) (opts : SetOptions)
    (now : Nat) (st : Store) : Except KVError Nat × Store :=
  let contentType := opts.contentType.getD "application/json"
  let expiresAt := ttlExpiry opts.ttl now
  let serialized := serializeVal J contentType v
  match opts.cas with
  | some cas =>
    let out := get J ns key {} now st
    let st1 := out.2
    match out.1 with
    | none => (.error .casKeyAbsent, st1)
    | some current =>
      if current.metadata.version != cas then
        (.error .casVersionMismatch, st1)
      else
        let changes :=
          (st1.filter (fun e => e.ns == ns && e.key == key && e.version == cas)).length
        if changes == 0 then
          (.error .casConcurrentUpdate, st1)
        else
          let st2 := st1.map (fun e =>
            if e.ns == ns && e.key == key && e.version == cas then
              { e with value := serialized, contentType := contentType,
                       version := e.version + 1, expiresAt := expiresAt,
                       updatedAt := now }
            else e)
          (.ok (cas + 1), st2)
  | none =>
    match findEntry st ns key with
    | none =>
      (.ok 1, ⟨ns, key, serialized, contentType, 1, expiresAt, now⟩ :: st)
    | some row =>
      let st2 := st.map (fun e =>
        if e.ns == ns && e.key == key then
          { e with value := serialized, contentType := contentType,
                   version := e.version + 1, expiresAt := expiresAt,
                   updatedAt := now }
        else e)
      (.ok (row.version + 1), st2)

/-- `SQLiteKV.delete`: `DELETE FROM kv WHERE ns = ? AND key = ?` (no expiry
condition); returns `info.changes > 0`. -/
def del (ns key : String) (st : Store) : Bool × Store :=
  let changes := (st.filter (fun e => e.ns == ns && e.key == key)).length
  (decide (changes > 0), st.filter (fun e => !(e.ns == ns && e.key == key)))

/-- `SQLiteKV.cleanupAllExpired`: `DELETE FROM kv WHERE expires_at IS NOT NULL
AND expires_at <= ?`, returning the number of removed rows. -/
def cleanupAllExpired (now : Nat) (st : Store) : Nat × Store :=
  ((st.filter (fun e => e.expired now)).length,
   st.filter (fun e => !e.expired now))

/-! ### Cursor codec

`list` encodes the boundary key with `Buffer.from(key).toString('base64')`
and decodes a supplied cursor with `Buffer.from(cursor, 'base64')
.toString('utf-8')`.  Node's base64 decoder is lenient: characters outside
the base64 alphabet are ignored and decoding never throws.  Both directions
are implemented concretely below (base64 over the key's UTF-8 bytes). -/

/-- Value of a base64 alphabet character (`A–Z a–z 0–9 + /`), `none` for any
other character (Node ignores those while decoding). -/
def b64val (c : Char) : Option Nat :=
  if 'A' ≤ c ∧ c ≤ 'Z' then some (c.toNat - 65)
  else if 'a' ≤ c ∧ c ≤ 'z' then some (c.toNat - 97 + 26)
  else if '0' ≤ c ∧ c ≤ '9' then some (c.toNat - 48 + 52)
  else if c = '+' then some 62
  else if c = '/' then some 63
  else none

/-- Base64 alphabet character for a 6-bit value. -/
def b64char (n : Nat) : Char :=
  if n < 26 then Char.ofNat (65 + n)
  else if n < 52 then Char.ofNat (97 + (n - 26))
  else if n < 62 then Char.ofNat (48 + (n - 52))
  else if n = 62 then '+'
  else '/'

/-- Base64-encode a byte sequence (with `=` padding), 3 bytes per 4 chars. -/
def b64encodeBytes : List Nat → List Char
  | x :: y :: z :: rest =>
    b64char (x / 4) :: b64char (x % 4 * 16 + y / 16) ::
      b64char (y % 16 * 4 + z / 64) :: b64char (z % 64) :: b64encodeBytes rest
  | [x, y] => [b64char (x / 4), b64char (x % 4 * 16 + y / 16), b64char (y % 16 * 4), '=']
  | [x] => [b64char (x / 4), b64char (x % 4 * 16), '=', '=']
  | [] => []

/-- Reassemble bytes from a stream of 6-bit values (groups of 4 values give
3 bytes; a trailing group of 2 or 3 values gives 1 or 2 bytes; a lone
trailing value yields nothing). -/
def b64decodeVals : List Nat → List Nat
  | a :: b :: c :: d :: rest =>
    (a * 4 + b / 16) :: (b % 16 * 16 + c / 4) :: (c % 4 * 64 + d) :: b64decodeVals rest
  | [a, b] => [a * 4 + b / 16]
  | [a, b, c] => [a * 4 + b / 16, b % 16 * 16 + c / 4]
  | [_] => []
  | [] => []

/-- Node-lenient base64 decode of a character sequence: characters outside
the alphabet (including `=`) are ignored; never fails. -/
def b64decode (s : List Char) : List Nat :=
  b64decodeVals (s.filterMap b64val)

/-- UTF-8 encoding of one character (1–4 bytes). -/
def utf8Bytes (c : Char) : List Nat :=
  if c.toNat < 128 then [c.toNat]
  else if c.toNat < 2048 then [192 + c.toNat / 64, 128 + c.toNat % 64]
  else if c.toNat < 65536 then
    [224 + c.toNat / 4096, 128 + c.toNat / 64 % 64, 128 + c.toNat % 64]
  else
    [240 + c.toNat / 262144, 128 + c.toNat / 4096 % 64, 128 + c.toNat / 64 % 64,
     128 + c.toNat % 64]

/-- UTF-8 bytes of a string (`Buffer.from(key)`). -/
def strBytes (s : String) : List Nat :=
  s.data.foldr (fun c acc => utf8Bytes c ++ acc) []

/-- UTF-8 continuation byte test. -/
def isCont (b : Nat) : Bool :=
  decide (128 ≤ b) && decide (b ≤ 191)

/-- The replacement character U+FFFD emitted for malformed input. -/
def repl : Char := Char.ofNat 65533

/-- Fuelled UTF-8 decoder (the fuel is an upper bound on the number of
characters still to be produced; each step consumes at least one byte). -/
def utf8DecodeAux : Nat → List Nat → List Char
  | 0, _ => []
  | _ + 1, [] => []
  | fuel + 1, b :: rest =>
    if b < 128 then Char.ofNat b :: utf8DecodeAux fuel rest
    else if 194 ≤ b ∧ b ≤ 223 then
      match rest with
      | b2 :: rest2 =>
        if isCont b2 then
          Char.ofNat ((b - 192) * 64 + (b2 - 128)) :: utf8DecodeAux fuel rest2
        else repl :: utf8DecodeAux fuel rest
      | [] => [repl]
    else if 224 ≤ b ∧ b ≤ 239 then
      match rest with
      | b2 :: b3 :: rest3 =>
        if isCont b2 && isCont b3 then
          Char.ofNat ((b - 224) * 4096 + (b2 - 128) * 64 + (b3 - 128)) ::
            utf8DecodeAux fuel rest3
        else repl :: utf8DecodeAux fuel rest
      | _ => [repl]
    else if 240 ≤ b ∧ b ≤ 244 then
      match rest with
      | b2 :: b3 :: b4 :: rest4 =>
        if isCont b2 && isCont b3 && isCont b4 then
          Char.ofNat ((b - 240) * 262144 + (b2 - 128) * 4096 + (b3 - 128) * 64 + (b4 - 128)) ::
            utf8DecodeAux fuel rest4
        else repl :: utf8DecodeAux fuel rest
      | _ => [repl]
    else repl :: utf8DecodeAux fuel rest

/-- UTF-8 decode of a byte sequence (`buffer.toString('utf-8')`). -/
def utf8Decode (l : List Nat) : List Char :=
  utf8DecodeAux l.length l

/-- `Buffer.from(key).toString('base64')` — the emitted `nextCursor`. -/
def encodeCursor (k : String) : String :=
  ⟨b64encodeBytes (strBytes k)⟩

/-- `Buffer.from(cursor, 'base64').toString('utf-8')` — lenient, total. -/
def decodeCursor (c : String) : String :=
  ⟨utf8Decode (b64decode c.data)⟩

/-! ### `list`

SQLite compares `TEXT` with the `BINARY` collation: bytewise `memcmp` of the
UTF-8 encodings, which coincides with lexicographic comparison of Unicode
code points.  That order is implemented here as an executable comparator. -/

/-- Lexicographic strict order on character lists by code point (SQLite's
`BINARY` collation on the corresponding UTF-8 strings). -/
def strLtL : List Char → List Char → Bool
  | [], [] => false
  | [], _ :: _ => true
  | _ :: _, [] => false
  | a :: as, b :: bs => decide (a.toNat < b.toNat) || (a == b && strLtL as bs)

/-- `a < b` in SQLite key order. -/
def strLtb (a b : String) : Bool :=
  strLtL a.data b.data

/-- `a <= b` in SQLite key order (used as the `ORDER BY key` comparator). -/
def strLeb (a b : String) : Bool :=
  strLtb a b || a == b

/-- The `ORDER BY key` order as a decidable relation. -/
def keyLe (a b : String) : Prop :=
  strLeb a b = true

instance : DecidableRel keyLe :=
  fun a b => instDecidableEqBool (strLeb a b) true

/-- Strict key order as a relation. -/
def keyLt (a b : String) : Prop :=
  strLtb a b = true

instance : DecidableRel keyLt :=
  fun a b => instDecidableEqBool (strLtb a b) true

/-- ASCII-only lower-casing, as performed by SQLite's default `LIKE`. -/
def asciiLower (c : Char) : Char :=
  if 'A' ≤ c ∧ c ≤ 'Z' then Char.ofNat (c.toNat + 32) else c

/-- SQLite `LIKE` matching: `%` matches any sequence, `_` any single
character, ordinary characters match ASCII-case-insensitively.  The fuel
argument (any bound above `2 * |s| + |p|`) only forces termination. -/
def likeMatchAux : Nat → List Char → List Char → Bool
  | 0, _, _ => false
  | _ + 1, [], [] => true
  | _ + 1, [], _ :: _ => false
  | f + 1, '%' :: ps, [] => likeMatchAux f ps []
  | f + 1, '%' :: ps, c :: s => likeMatchAux f ps (c :: s) || likeMatchAux f ('%' :: ps) s
  | _ + 1, _ :: _, [] => false
  | f + 1, '_' :: ps, _ :: s => likeMatchAux f ps s
  | f + 1, p :: ps, c :: s => (asciiLower p == asciiLower c) && likeMatchAux f ps s

/-- `key LIKE pattern` under SQLite's default semantics. -/
def likeMatch (pat s : String) : Bool :=
  likeMatchAux (2 * s.data.length + pat.data.length + 1) pat.data s.data

/-- The `AND key LIKE prefix || '%'` clause, added only when `prefix` is
truthy (present and non-empty). -/
def pfxCond (p : Option String) (k : String) : Bool :=
  match p with
  | some q => if q ≠ "" then likeMatch (q ++ "%") k else true
  | none => true

/-- `const startKey = cursor ? Buffer.from(cursor, 'base64').toString('utf-8') : ''`
(an absent or empty cursor gives the empty start key). -/
def startKeyOf (c : Option String) : String :=
  match c with
  | some cs => if cs ≠ "" then decodeCursor cs else ""
  | none => ""

/-- `ListOptions` of `src/storage/kv.ts`; the source's `prefix` field is
named `pfx` here (`prefix` is reserved in Lean). -/
structure ListOptions where
  limit : Option Nat := none
  cursor : Option String := none
  pfx : Option String := none
deriving DecidableEq, Repr

/-- `ListResult` of `src/storage/kv.ts`. -/
structure ListResult where
  keys : List String
  cursor : Option String
deriving DecidableEq, Repr

/-- `SQLiteKV.list`.  Faithful to the source query
`SELECT key FROM (SELECT key FROM kv WHERE ns = ? [AND key LIKE prefix||'%']
[AND key > startKey] ORDER BY key LIMIT limit+1) WHERE NOT EXISTS (SELECT 1
FROM kv WHERE ns = ? AND key = kv.key AND expires_at IS NOT NULL AND
expires_at <= ?)`: inside the `NOT EXISTS` subquery both `key` and `kv.key`
resolve to the subquery's own `kv` table (the outer derived table is
unnamed), so the condition `key = kv.key` is a tautology and the outer
filter drops every row as soon as the namespace contains any expired row.
JavaScript truthiness: an empty `cursor`, decoded `startKey` or `prefix`
disables the corresponding clause; `limit = 0` is not replaced by the
default `100`.  When `hasMore` holds, the boundary key is
`keys[keys.length - 1]`; on an empty page this is `undefined` and
`Buffer.from(undefined)` throws a `TypeError`. -/
def list (ns : String) (opts : ListOptions) (now : Nat) (st : Store) :
    Except KVError ListResult :=
  let lim := opts.limit.getD 100
  let startKey := startKeyOf opts.cursor
  let selected := st.filter (fun e =>
    e.ns == ns
    && pfxCond opts.pfx e.key
    && (if startKey ≠ "" then strLtb startKey e.key else true))
  let ordered := List.insertionSort keyLe (selected.map (·.key))
  let inner := ordered.take (lim + 1)
  let rows := if st.any (fun e => e.ns == ns && e.expired now) then [] else inner
  let hasMore := decide (rows.length > lim)
  let keys := if hasMore then rows.take lim else rows
  if hasMore then
    match keys.getLast? with
    | none => .error .cursorTypeError
    | some k => .ok ⟨keys, some (encodeCursor k)⟩
  else
    .ok ⟨keys, none⟩

/-- Drive `list` the way the pagination property describes: start from a
cursor, feed each returned `nextCursor` back in, and concatenate the pages;
`none` when the fuel runs out or a call fails. -/
def listAll (ns : String) (p : Option String) (lim : Nat) (now : Nat)
    (st : Store) : Nat → Option String → Option (List String)
  | 0, _ => none
  | fuel + 1, c =>
    match list ns ⟨some lim, c, p⟩ now st with
    | .error _ => none
    | .ok ⟨ks, none⟩ => some ks
    | .ok ⟨ks, some c'⟩ =>
      match listAll ns p lim now st fuel (some c') with
      | none => none
      | some rest => some (ks ++ rest)

/-- Run a sequence of unconditional `set` calls against one key (each call
carries its value, `ttl`, `contentType` and clock instant), collecting the
returned versions. -/
def setCalls {α : Type} (J : JsCodec α) (ns key : String) :
    List (α × Option Nat × Option String × Nat) → Store →
    List (Except KVError Nat) × Store
  | [], st => ([], st)
  | (v, ttl, ct, now) :: rest, st =>
    let out := set J ns key v ⟨ttl, ct, none⟩ now st
    let tail := setCalls J ns key rest out.2
    (out.1 :: tail.1, tail.2)

/-- The `AND key > startKey` clause (skipped for a falsy empty start key). -/
def afterKey (s k : String) : Bool :=
  if s ≠ "" then strLtb s k else true

/-- The ordered key selection computed inside `list` for a given start key:
`SELECT key FROM kv WHERE ns = ? [AND key LIKE ...] [AND key > ?] ORDER BY key`. -/
def queryKeys (st : Store) (ns : String) (p : Option String) (s : String) :
    List String :=
  List.insertionSort keyLe
    ((st.filter (fun e =>
      e.ns == ns && pfxCond p e.key
        && (if s ≠ "" then strLtb s e.key else true))).map (·.key))

/-- All keys of the namespace matching the prefix condition, in `ORDER BY key`
order (the selection with no cursor constraint). -/
def nsKeys (st : Store) (ns : String) (p : Option String) : List String :=
  List.insertionSort keyLe
    ((st.filter (fun e => e.ns == ns && pfxCond p e.key)).map (·.key))

/-! ### Order theory for the key comparator -/

theorem charEq_of_toNat_eq {a b : Char} (h : a.toNat = b.toNat) : a = b :=
  Char.ext (UInt32.ext h)

theorem strLtL_irrefl : ∀ l : List Char, strLtL l l = false
  | [] => rfl
  | a :: as => by simp [strLtL, strLtL_irrefl as]

theorem strLtL_trans : ∀ (a b c : List Char),
    strLtL a b = true → strLtL b c = true → strLtL a c = true
  | [], [], _, h1, _ => absurd h1 (by simp [strLtL])
  | [], _ :: _, [], _, h2 => absurd h2 (by simp [strLtL])
  | [], _ :: _, _ :: _, _, _ => rfl
  | _ :: _, [], _, h1, _ => absurd h1 (by simp [strLtL])
  | _ :: _, _ :: _, [], _, h2 => absurd h2 (by simp [strLtL])
  | a :: as, b :: bs, c :: cs, h1, h2 => by
    simp only [strLtL, Bool.or_eq_true, Bool.and_eq_true, decide_eq_true_eq,
      beq_iff_eq] at h1 h2 ⊢
    rcases h1 with h1 | ⟨rfl, h1⟩
    · rcases h2 with h2 | ⟨rfl, h2⟩
      · exact Or.inl (lt_trans h1 h2)
      · exact Or.inl h1
    · rcases h2 with h2 | ⟨rfl, h2⟩
      · exact Or.inl h2
      · exact Or.inr ⟨rfl, strLtL_trans as bs cs h1 h2⟩

theorem strLtL_connex : ∀ (a b : List Char),
    strLtL a b = false → strLtL b a = false → a = b
  | [], [], _, _ => rfl
  | [], _ :: _, h1, _ => absurd h1 (by simp [strLtL])
  | _ :: _, [], _, h2 => absurd h2 (by simp [strLtL])
  | a :: as, b :: bs, h1, h2 => by
    simp only [strLtL, Bool.or_eq_false_iff, Bool.and_eq_false_iff,
      decide_eq_false_iff_not, not_lt, beq_eq_false_iff_ne, ne_eq] at h1 h2
    have hab : a = b := charEq_of_toNat_eq (le_antisymm h2.1 h1.1)
    subst hab
    rcases h1.2 with h | h
    · exact absurd rfl h
    · rcases h2.2 with h' | h'
      · exact absurd rfl h'
      · rw [strLtL_connex as bs h h']

theorem strLtb_irrefl (a : String) : strLtb a a = false :=
  strLtL_irrefl _

theorem strLtb_trans {a b c : String} (h1 : strLtb a b = true)
    (h2 : strLtb b c = true) : strLtb a c = true :=
  strLtL_trans _ _ _ h1 h2

theorem strLtb_connex {a b : String} (h1 : strLtb a b = false)
    (h2 : strLtb b a = false) : a = b := by
  cases a with
  | mk la =>
    cases b with
    | mk lb => exact congrArg String.mk (strLtL_connex la lb h1 h2)

theorem strLtb_asymm {a b : String} (h : strLtb a b = true) : strLtb b a = false := by
  cases h2 : strLtb b a with
  | false => rfl
  | true => exact absurd (strLtb_trans h h2) (by simp [strLtb_irrefl])

theorem keyLe_iff {a b : String} : keyLe a b ↔ strLtb a b = true ∨ a = b := by
  unfold keyLe strLeb
  simp [Bool.or_eq_true, beq_iff_eq, strLtb]

theorem keyLt_iff {a b : String} : keyLt a b ↔ strLtb a b = true := Iff.rfl

theorem keyLt_irrefl (a : String) : ¬keyLt a a := by
  simp [keyLt, strLtb_irrefl]

theorem keyLt_trans {a b c : String} (h1 : keyLt a b) (h2 : keyLt b c) : keyLt a c :=
  strLtb_trans h1 h2

theorem keyLt_asymm {a b : String} (h : keyLt a b) : ¬keyLt b a := by
  simp [keyLt, strLtb_asymm h]

theorem keyLt_ne {a b : String} (h : keyLt a b) : a ≠ b := by
  rintro rfl
  exact keyLt_irrefl a h

instance : IsTrans String keyLe where
  trans a b c h1 h2 := by
    rw [keyLe_iff] at *
    rcases h1 with h1 | rfl
    · rcases h2 with h2 | rfl
      · exact Or.inl (strLtb_trans h1 h2)
      · exact Or.inl h1
    · exact h2

instance : IsTotal String keyLe where
  total a b := by
    rw [keyLe_iff, keyLe_iff]
    cases h1 : strLtb a b with
    | true => exact Or.inl (Or.inl rfl)
    | false =>
      cases h2 : strLtb b a with
      | true => exact Or.inr (Or.inl rfl)
      | false => exact Or.inl (Or.inr (strLtb_connex h1 h2))

instance : IsAntisymm String keyLe where
  antisymm a b h1 h2 := by
    rw [keyLe_iff] at h1 h2
    rcases h1 with h1 | rfl
    · rcases h2 with h2 | rfl
      · exact absurd h2 (by simp [strLtb_asymm h1])
      · rfl
    · rfl

theorem sorted_keyLt_of_nodup {l : List String} (hs : l.Sorted keyLe)
    (hn : l.Nodup) : l.Sorted keyLt :=
  (hs.and hn).imp (fun h => by
    rcases keyLe_iff.mp h.1 with hlt | heq
    · exact hlt
    · exact absurd heq h.2)

theorem nodup_of_sorted_keyLt {l : List String} (hs : l.Sorted keyLt) : l.Nodup :=
  hs.imp (fun h => keyLt_ne h)

/-! ### Store lemmas -/

theorem findEntry_some {st : Store} {ns key : String} {e : Entry}
    (h : findEntry st ns key = some e) : e ∈ st ∧ e.ns = ns ∧ e.key = key := by
  have hm := List.mem_of_find?_eq_some h
  have hp := List.find?_some h
  simp only [Bool.and_eq_true, beq_iff_eq] at hp
  exact ⟨hm, hp.1, hp.2⟩

theorem findEntry_eq_none {st : Store} {ns key : String} :
    findEntry st ns key = none ↔ ∀ e ∈ st, ¬(e.ns = ns ∧ e.key = key) := by
  unfold findEntry
  rw [List.find?_eq_none]
  constructor
  · intro h e he hc
    have := h e he
    simp [hc.1, hc.2] at this
  · intro h e he
    simp only [Bool.and_eq_true, beq_iff_eq]
    exact h e he

/-- Under the primary-key invariant, the row found for `(ns, key)` splits the
store into a prefix and suffix containing no other row for that key. -/
theorem findEntry_decomp {st : Store} {ns key : String} {e : Entry} (hwf : WF st)
    (h : findEntry st ns key = some e) :
    ∃ l1 l2, st = l1 ++ e :: l2 ∧
      ∀ x, (x ∈ l1 ∨ x ∈ l2) → ¬(x.ns = ns ∧ x.key = key) := by
  induction st with
  | nil => simp [findEntry] at h
  | cons a rest ih =>
    by_cases hpa : (a.ns == ns && a.key == key) = true
    · have ha : a = e := by
        have := h
        simp only [findEntry, List.find?_cons, hpa] at this
        exact Option.some.inj this
      subst ha
      simp only [Bool.and_eq_true, beq_iff_eq] at hpa
      refine ⟨[], rest, rfl, ?_⟩
      intro x hx hc
      rcases hx with hx | hx
      · simp at hx
      · have hd := (List.pairwise_cons.mp hwf).1 x hx
        rcases hd with hd | hd
        · exact hd (by rw [hpa.1, hc.1])
        · exact hd (by rw [hpa.2, hc.2])
    · have h' : findEntry rest ns key = some e := by
        have := h
        simp only [findEntry, List.find?_cons, Bool.not_eq_true] at this ⊢
        rw [Bool.not_eq_true] at hpa
        rw [hpa] at this
        exact this
      obtain ⟨l1, l2, hst, hother⟩ := ih (List.pairwise_cons.mp hwf).2 h'
      refine ⟨a :: l1, l2, by simp [hst], ?_⟩
      intro x hx hc
      rcases hx with hx | hx
      · rcases List.mem_cons.mp hx with rfl | hx
        · apply hpa
          simp [hc.1, hc.2]
        · exact hother x (Or.inl hx) hc
      · exact hother x (Or.inr hx) hc

theorem cleanupExpired_of_none {st : Store} {ns key : String} {now : Nat}
    (h : ∀ e ∈ st, e.ns = ns → e.key = key → e.expired now = false) :
    cleanupExpired ns key now st = st := by
  apply List.filter_eq_self.mpr
  intro e he
  by_cases h1 : e.ns = ns
  · by_cases h2 : e.key = key
    · simp [h1, h2, h e he h1 h2]
    · simp [h2]
  · simp [h1]

theorem liveView_cleanupExpired (ns key : String) (now : Nat) (st : Store) :
    liveView now (cleanupExpired ns key now st) = liveView now st := by
  unfold liveView cleanupExpired
  rw [List.filter_filter]
  apply List.filter_congr
  intro e _
  cases hexp : e.expired now <;> simp [hexp]

theorem find?_filter_keep {l : List Entry} {p keep : Entry → Bool} {x : Entry}
    (h : l.find? p = some x) (hx : keep x = true) :
    (l.filter keep).find? p = some x := by
  induction l with
  | nil => simp at h
  | cons a rest ih =>
    by_cases hpa : p a = true
    · rw [List.find?_cons_of_pos _ hpa] at h
      obtain rfl := Option.some.inj h
      rw [List.filter_cons_of_pos hx, List.find?_cons_of_pos _ hpa]
    · rw [List.find?_cons_of_neg _ hpa] at h
      by_cases hka : keep a = true
      · rw [List.filter_cons_of_pos hka, List.find?_cons_of_neg _ hpa]
        exact ih h
      · rw [List.filter_cons_of_neg (by simp [hka])]
        exact ih h

/-! ### Unconditional upsert -/

theorem set_nocas_absent {α : Type} (J : JsCodec α) {st : Store} {ns key : String}
    (v : α) (ttl : Option Nat) (ct : Option String) (now : Nat)
    (h : findEntry st ns key = none) :
    set J ns key v ⟨ttl, ct, none⟩ now st =
      (.ok 1, ⟨ns, key, serializeVal J (ct.getD "application/json") v,
               ct.getD "application/json", 1, ttlExpiry ttl now, now⟩ :: st) := by
  simp [set, h]

theorem set_nocas_present {α : Type} (J : JsCodec α) {st : Store} {ns key : String}
    {row : Entry} (v : α) (ttl : Option Nat) (ct : Option String) (now : Nat)
    (h : findEntry st ns key = some row) :
    set J ns key v ⟨ttl, ct, none⟩ now st =
      (.ok (row.version + 1),
       st.map (fun e =>
         if e.ns == ns && e.key == key then
           { e with value := serializeVal J (ct.getD "application/json") v,
                    contentType := ct.getD "application/json",
                    version := e.version + 1, expiresAt := ttlExpiry ttl now,
                    updatedAt := now }
         else e)) := by
  simp [set, h]

theorem findEntry_map_upd {st : Store} {ns key : String} {row : Entry}
    (upd : Entry → Entry) (hns : ∀ e, (upd e).ns = e.ns)
    (hkey : ∀ e, (upd e).key = e.key) (h : findEntry st ns key = some row) :
    findEntry (st.map (fun e => if e.ns == ns && e.key == key then upd e else e))
      ns key = some (upd row) := by
  unfold findEntry at h ⊢
  have hrow := List.find?_some h
  rw [List.find?_map]
  have hcomp : ((fun e : Entry => e.ns == ns && e.key == key) ∘
      (fun e : Entry => if e.ns == ns && e.key == key then upd e else e)) =
      (fun e : Entry => e.ns == ns && e.key == key) := by
    funext e
    by_cases hc : (e.ns == ns && e.key == key) = true
    · simp [Function.comp, hc, hns, hkey]
    · simp [Function.comp, hc]
  rw [hcomp, h]
  simp only [Option.map_some']
  exact congrArg some (if_pos hrow)

theorem findEntry_set_map {st : Store} {ns key : String} {row : Entry}
    (sv ctv : String) (ea : Option Nat) (nowv : Nat)
    (h : findEntry st ns key = some row) :
    findEntry (st.map (fun e =>
      if e.ns == ns && e.key == key then
        { e with value := sv, contentType := ctv, version := e.version + 1,
                 expiresAt := ea, updatedAt := nowv }
      else e)) ns key =
    some { row with value := sv, contentType := ctv,
                    version := row.version + 1,
                    expiresAt := ea, updatedAt := nowv } :=
  findEntry_map_upd
    (fun e => { e with value := sv, contentType := ctv,
                       version := e.version + 1,
                       expiresAt := ea, updatedAt := nowv })
    (fun _ => rfl) (fun _ => rfl) h

theorem findEntry_cons_matching {st : Store} {ns key : String} (e : Entry)
    (h1 : e.ns = ns) (h2 : e.key = key) : findEntry (e :: st) ns key = some e := by
  simp [findEntry, List.find?_cons, h1, h2]

theorem expired_of_ttlExpiry {ttl : Option Nat} {now nowR : Nat}
    (hexp : ∀ t, ttl = some t → 0 < t → nowR < now + t * 1000) (e : Entry)
    (he : e.expiresAt = ttlExpiry ttl now) : e.expired nowR = false := by
  cases httl : ttl with
  | none => simp [Entry.expired, he, httl, ttlExpiry]
  | some t =>
    by_cases ht : t = 0
    · simp [Entry.expired, he, httl, ttlExpiry, ht]
    · have h1 : nowR < now + t * 1000 := hexp t httl (Nat.pos_of_ne_zero ht)
      simp only [Entry.expired, he, httl, ttlExpiry]
      simp [ht]
      omega

theorem get_of_found_not_expired {α : Type} (J : JsCodec α) {st : Store}
    {ns key : String} {e : Entry} {now : Nat}
    (h : findEntry st ns key = some e) (hlive : e.expired now = false) :
    (get J ns key {} now st).1 =
      some ⟨(if e.contentType == "application/json" then J.parse e.value
             else J.ofBuffer e.value),
            ⟨e.version, e.expiresAt, e.updatedAt, e.contentType⟩⟩ := by
  have h2 : findEntry (cleanupExpired ns key now st) ns key = some e :=
    find?_filter_keep h (by simp [hlive])
  simp [get, h2]

theorem get_of_none {α : Type} (J : JsCodec α) {st : Store} {ns key : String}
    {now : Nat} (h : findEntry (cleanupExpired ns key now st) ns key = none) :
    get J ns key {} now st = (none, cleanupExpired ns key now st) := by
  simp [get, h]

theorem setCalls_versions_aux {α : Type} (J : JsCodec α) (ns key : String) :
    ∀ (calls : List (α × Option Nat × Option String × Nat)) (st : Store) (n : Nat),
    ((n = 0 ∧ findEntry st ns key = none) ∨
      (∃ row, findEntry st ns key = some row ∧ row.version = n)) →
    (setCalls J ns key calls st).1 =
      (List.range calls.length).map (fun i => .ok (n + i + 1))
  | [], _, _, _ => by simp [setCalls]
  | (v, ttl, ct, now) :: rest, st, n, hst => by
    have step : (set J ns key v ⟨ttl, ct, none⟩ now st).1 = .ok (n + 1) ∧
        (∃ row, findEntry (set J ns key v ⟨ttl, ct, none⟩ now st).2 ns key = some row ∧
          row.version = n + 1) := by
      rcases hst with ⟨rfl, habs⟩ | ⟨row, hrow, hver⟩
      · rw [set_nocas_absent J v ttl ct now habs]
        refine ⟨rfl, ?_⟩
        refine ⟨(⟨ns, key, serializeVal J (ct.getD "application/json") v,
          ct.getD "application/json", 1, ttlExpiry ttl now, now⟩ : Entry), ?_, ?_⟩
        · exact findEntry_cons_matching _ rfl rfl
        · rfl
      · rw [set_nocas_present J v ttl ct now hrow]
        constructor
        · rw [hver]
        · exact ⟨_, findEntry_set_map _ _ _ _ hrow, by simp [hver]⟩
    have ih := setCalls_versions_aux J ns key rest
      (set J ns key v ⟨ttl, ct, none⟩ now st).2 (n + 1) (Or.inr step.2)
    simp only [setCalls, step.1, ih, List.length_cons, List.range_succ_eq_map,
      List.map_cons, List.map_map, Nat.add_zero]
    congr 1
    apply List.map_congr_left
    intro i _
    simp only [Function.comp]
    congr 1
    omega

/-- C2: the unconditional upsert creates an absent key at version 1; when a
row is physically present — live **or expired** — it increments that row's
version by exactly one and replaces value, contentType, expiresAt and
updatedAt; consequently, starting from no row, the versions returned by
successive unconditional `set` calls are `1, 2, 3, …` with no gaps or
repeats.  (Amended from the claim: an expired-but-not-yet-deleted row is
updated in place, not recreated at version 1.) -/
theorem C2_upsert_versions {α : Type} (J : JsCodec α) (ns key : String) (v : α)
    (ttl : Option Nat) (ct : Option String) (now : Nat) (st : Store)
    (calls : List (α × Option Nat × Option String × Nat)) :
    (findEntry st ns key = none →
      set J ns key v ⟨ttl, ct, none⟩ now st =
        (.ok 1, ⟨ns, key, serializeVal J (ct.getD "application/json") v,
                 ct.getD "application/json", 1, ttlExpiry ttl now, now⟩ :: st)) ∧
    (∀ row, findEntry st ns key = some row →
      set J ns key v ⟨ttl, ct, none⟩ now st =
        (.ok (row.version + 1),
         st.map (fun e =>
           if e.ns == ns && e.key == key then
             { e with value := serializeVal J (ct.getD "application/json") v,
                      contentType := ct.getD "application/json",
                      version := e.version + 1, expiresAt := ttlExpiry ttl now,
                      updatedAt := now }
           else e))) ∧
    (findEntry st ns key = none →
      (setCalls J ns key calls st).1 =
        (List.range calls.length).map (fun i => .ok (i + 1))) := by
  refine ⟨fun h => set_nocas_absent J v ttl ct now h,
          fun row h => set_nocas_present J v ttl ct now h,
          fun h => ?_⟩
  have := setCalls_versions_aux J ns key calls st 0 (Or.inl ⟨rfl, h⟩)
  simpa using this

theorem C2_upsert_versions_witness :
    (setCalls idCodec "n" "k"
      [("a", none, none, 0), ("b", none, none, 1), ("c", none, none, 2)] []).1 =
      [.ok 1, .ok 2, .ok 3] := by
  have h := (C2_upsert_versions idCodec "n" "k" "a" none none 0 []
    [("a", none, none, 0), ("b", none, none, 1), ("c", none, none, 2)]).2.2 (by decide)
  rw [h]
  decide

/-- C2, counterexample to the claim as stated: after `set` with `ttl = 1` at
time 0 the row expires at 1000; at time 2000 the key is expired, yet an
unconditional `set` returns version 2 (the expired row's version + 1), not
version 1 as the claim's "absent or expired ⇒ creates at version 1"
requires. -/
theorem C2_upsert_versions_counterexample :
    ((findEntry (set idCodec "n" "k" "v" ⟨some 1, none, none⟩ 0 []).2 "n" "k").map
        (fun e => e.expired 2000)) = some true ∧
    (set idCodec "n" "k" "w" ⟨none, none, none⟩ 2000
        (set idCodec "n" "k" "v" ⟨some 1, none, none⟩ 0 []).2).1 = .ok 2 := by
  decide

/-- C5 (amended): `delete` returns `true` iff a row for the key is physically
present — including a row that has already expired but was not yet cleaned
up; on a key with no physical row it returns `false` and leaves the store
unchanged; after a `delete`, `get` on that key returns absent. -/
theorem C5_delete {α : Type} (J : JsCodec α) (ns key : String) (st : Store)
    (now : Nat) :
    ((del ns key st).1 = true ↔ ∃ e ∈ st, e.ns = ns ∧ e.key = key) ∧
    ((del ns key st).1 = false → (del ns key st).2 = st) ∧
    (get J ns key {} now (del ns key st).2).1 = none ∧
    findEntry (del ns key st).2 ns key = none := by
  have hmem : ∀ x ∈ (del ns key st).2, ¬(x.ns = ns ∧ x.key = key) := by
    intro x hx hc
    simp only [del, List.mem_filter] at hx
    simp [hc.1, hc.2] at hx
  have hfe : findEntry (del ns key st).2 ns key = none :=
    findEntry_eq_none.mpr hmem
  refine ⟨?_, ?_, ?_, hfe⟩
  · simp only [del, decide_eq_true_iff, List.length_pos]
    rw [Ne, List.filter_eq_nil_iff]
    simp only [Bool.and_eq_true, beq_iff_eq, not_forall]
    constructor
    · rintro ⟨e, he, hne⟩
      rw [not_not] at hne
      exact ⟨e, he, hne.1, hne.2⟩
    · rintro ⟨e, he, h1, h2⟩
      exact ⟨e, he, by simp [h1, h2]⟩
  · intro h
    simp only [del, decide_eq_true_iff] at h
    have h0 : (st.filter (fun e => e.ns == ns && e.key == key)) = [] := by
      cases hl : st.filter (fun e => e.ns == ns && e.key == key) with
      | nil => rfl
      | cons a t => rw [hl] at h; simp at h
    rw [List.filter_eq_nil_iff] at h0
    simp only [del]
    apply List.filter_eq_self.mpr
    intro a ha
    simp [h0 a ha]
  · have h2 : findEntry (cleanupExpired ns key now (del ns key st).2) ns key = none := by
      rw [findEntry_eq_none]
      intro x hx
      rw [cleanupExpired, List.mem_filter] at hx
      exact hmem x hx.1
    rw [get_of_none J h2]

theorem C5_delete_witness :
    ((del "n" "k" [(⟨"n", "k", "v", "application/json", 1, some 1000, 0⟩ : Entry)]).1 = true ↔
      ∃ e ∈ [(⟨"n", "k", "v", "application/json", 1, some 1000, 0⟩ : Entry)],
        e.ns = "n" ∧ e.key = "k") ∧
    ((del "n" "k" [(⟨"n", "k", "v", "application/json", 1, some 1000, 0⟩ : Entry)]).1 = false →
      (del "n" "k" [(⟨"n", "k", "v", "application/json", 1, some 1000, 0⟩ : Entry)]).2 =
        [(⟨"n", "k", "v", "application/json", 1, some 1000, 0⟩ : Entry)]) ∧
    (get idCodec "n" "k" {} 2000
      (del "n" "k" [(⟨"n", "k", "v", "application/json", 1, some 1000, 0⟩ : Entry)]).2).1 = none ∧
    findEntry (del "n" "k"
      [(⟨"n", "k", "v", "application/json", 1, some 1000, 0⟩ : Entry)]).2 "n" "k" = none :=
  C5_delete idCodec "n" "k" [⟨"n", "k", "v", "application/json", 1, some 1000, 0⟩] 2000

/-- C5, counterexample to the claim as stated: a row whose `expiresAt` is
1000 is expired (not live) at time 2000, so the claim requires `delete` to
return `false`; the source's `DELETE FROM kv WHERE ns = ? AND key = ?` has no
expiry condition, removes the physical row and returns `true`. -/
theorem C5_delete_counterexample :
    ((findEntry [(⟨"n", "k", "v", "application/json", 1, some 1000, 0⟩ : Entry)] "n" "k").map
        (fun e => e.expired 2000)) = some true ∧
    (del "n" "k" [(⟨"n", "k", "v", "application/json", 1, some 1000, 0⟩ : Entry)]).1 = true := by
  decide

/-- C8: storing a value with the default `contentType` (`application/json`)
and reading it back before expiry yields exactly the JSON round-trip
`JSON.parse(JSON.stringify(value))` of the stored value, with
`contentType = 'application/json'` in the metadata. -/
theorem C8_json_roundtrip {α : Type} (J : JsCodec α) (ns key : String) (v : α)
    (ttl : Option Nat) (now nowR : Nat) (st : Store)
    (hexp : ∀ t, ttl = some t → 0 < t → nowR < now + t * 1000) :
    ∃ ver, (set J ns key v ⟨ttl, none, none⟩ now st).1 = .ok ver ∧
      (get J ns key {} nowR (set J ns key v ⟨ttl, none, none⟩ now st).2).1 =
        some ⟨J.parse (J.stringify v), ⟨ver, ttlExpiry ttl now, now, "application/json"⟩⟩ := by
  cases hfe : findEntry st ns key with
  | none =>
    have hs := set_nocas_absent J v ttl none now hfe
    simp only [Option.getD_none] at hs
    have h1 : (set J ns key v ⟨ttl, none, none⟩ now st).1 = .ok 1 := by rw [hs]
    have h2 : (set J ns key v ⟨ttl, none, none⟩ now st).2 =
        (⟨ns, key, serializeVal J "application/json" v, "application/json", 1,
          ttlExpiry ttl now, now⟩ : Entry) :: st := by rw [hs]
    refine ⟨1, h1, ?_⟩
    rw [h2]
    have hf2 : findEntry
        ((⟨ns, key, serializeVal J "application/json" v, "application/json", 1,
          ttlExpiry ttl now, now⟩ : Entry) :: st) ns key =
        some ⟨ns, key, serializeVal J "application/json" v, "application/json", 1,
          ttlExpiry ttl now, now⟩ := by
      simp [findEntry, List.find?_cons]
    rw [get_of_found_not_expired J hf2 (expired_of_ttlExpiry hexp _ rfl)]
    simp [serializeVal]
  | some row =>
    have hs := set_nocas_present J v ttl none now hfe
    simp only [Option.getD_none] at hs
    have h1 : (set J ns key v ⟨ttl, none, none⟩ now st).1 = .ok (row.version + 1) := by
      rw [hs]
    have h2 : (set J ns key v ⟨ttl, none, none⟩ now st).2 =
        st.map (fun e =>
          if e.ns == ns && e.key == key then
            { e with value := serializeVal J "application/json" v,
                     contentType := "application/json", version := e.version + 1,
                     expiresAt := ttlExpiry ttl now, updatedAt := now }
          else e) := by rw [hs]
    refine ⟨row.version + 1, h1, ?_⟩
    rw [h2]
    have hf2 := findEntry_set_map (serializeVal J "application/json" v)
      "application/json" (ttlExpiry ttl now) now hfe
    have hlive : ({ row with value := serializeVal J "application/json" v,
                             contentType := "application/json",
                             version := row.version + 1,
                             expiresAt := ttlExpiry ttl now,
                             updatedAt := now } : Entry).expired nowR = false :=
      expired_of_ttlExpiry hexp _ rfl
    rw [get_of_found_not_expired J hf2 hlive]
    simp [serializeVal]

theorem C8_json_roundtrip_witness :
    ∃ ver, (set idCodec "n" "k" "V" ⟨some 1, none, none⟩ 0 []).1 = .ok ver ∧
      (get idCodec "n" "k" {} 500 (set idCodec "n" "k" "V" ⟨some 1, none, none⟩ 0 []).2).1 =
        some ⟨idCodec.parse (idCodec.stringify "V"),
              ⟨ver, ttlExpiry (some 1) 0, 0, "application/json"⟩⟩ :=
  C8_json_roundtrip idCodec "n" "k" "V" (some 1) 0 500 []
    (by intro t ht _; simp at ht; omega)

/-- C9: the expiry boundary is inclusive (`expires_at <= now`): a row whose
`expiresAt` equals the current instant is already expired — `get` returns
absent and physically deletes it (lazy cleanup), and `cleanupAllExpired`
removes it and counts it. -/
theorem C9_inclusive_expiry {α : Type} (J : JsCodec α) {st : Store}
    {ns key : String} {e : Entry} {now : Nat} (hwf : WF st)
    (hfind : findEntry st ns key = some e) (hexp : e.expiresAt = some now) :
    (get J ns key {} now st).1 = none ∧
    findEntry (get J ns key {} now st).2 ns key = none ∧
    e ∉ (cleanupAllExpired now st).2 ∧
    1 ≤ (cleanupAllExpired now st).1 := by
  have hexpb : e.expired now = true := by simp [Entry.expired, hexp]
  obtain ⟨l1, l2, hst, hother⟩ := findEntry_decomp hwf hfind
  have hN : findEntry (cleanupExpired ns key now st) ns key = none := by
    rw [findEntry_eq_none]
    intro x hx hc
    rw [cleanupExpired, List.mem_filter] at hx
    have hxe : x = e := by
      have hx1 := hx.1
      rw [hst] at hx1
      rcases List.mem_append.mp hx1 with hm | hm
      · exact absurd hc (hother x (Or.inl hm))
      · rcases List.mem_cons.mp hm with rfl | hm
        · rfl
        · exact absurd hc (hother x (Or.inr hm))
    subst hxe
    simp [hc.1, hc.2, hexpb] at hx
  have hget := get_of_none J hN
  refine ⟨by rw [hget], by rw [hget]; exact hN, ?_, ?_⟩
  · simp [cleanupAllExpired, List.mem_filter, hexpb]
  · have hm : e ∈ st.filter (fun x => x.expired now) :=
      List.mem_filter.mpr ⟨(findEntry_some hfind).1, hexpb⟩
    have := List.length_pos.mpr (List.ne_nil_of_mem hm)
    simpa [cleanupAllExpired] using this

theorem C9_inclusive_expiry_witness :
    (get idCodec "n" "k" {} 50 [(⟨"n", "k", "v", "application/json", 1, some 50, 0⟩ : Entry)]).1 = none ∧
    findEntry (get idCodec "n" "k" {} 50
      [(⟨"n", "k", "v", "application/json", 1, some 50, 0⟩ : Entry)]).2 "n" "k" = none ∧
    (⟨"n", "k", "v", "application/json", 1, some 50, 0⟩ : Entry) ∉
      (cleanupAllExpired 50 [(⟨"n", "k", "v", "application/json", 1, some 50, 0⟩ : Entry)]).2 ∧
    1 ≤ (cleanupAllExpired 50 [(⟨"n", "k", "v", "application/json", 1, some 50, 0⟩ : Entry)]).1 :=
  C9_inclusive_expiry idCodec (by simp [WF]) (by decide) (by decide)

/-! ### CAS -/

theorem get_snd {α : Type} (J : JsCodec α) (ns key : String) (opts : GetOptions)
    (now : Nat) (st : Store) :
    (get J ns key opts now st).2 = cleanupExpired ns key now st := by
  unfold get
  cases hf : findEntry (cleanupExpired ns key now st) ns key with
  | none => simp [hf]
  | some row =>
    simp only [hf]
    split <;> rfl

theorem findEntry_cleanup_of_expired {st : Store} {ns key : String} {e : Entry}
    {now : Nat} (hwf : WF st) (hfind : findEntry st ns key = some e)
    (hexp : e.expired now = true) :
    findEntry (cleanupExpired ns key now st) ns key = none := by
  obtain ⟨l1, l2, hst, hother⟩ := findEntry_decomp hwf hfind
  rw [findEntry_eq_none]
  intro x hx hc
  rw [cleanupExpired, List.mem_filter] at hx
  have hxe : x = e := by
    have hx1 := hx.1
    rw [hst] at hx1
    rcases List.mem_append.mp hx1 with hm | hm
    · exact absurd hc (hother x (Or.inl hm))
    · rcases List.mem_cons.mp hm with rfl | hm
      · rfl
      · exact absurd hc (hother x (Or.inr hm))
  subst hxe
  simp [hc.1, hc.2, hexp] at hx

theorem cleanup_of_found_live {st : Store} {ns key : String} {e : Entry}
    {now : Nat} (hwf : WF st) (hfind : findEntry st ns key = some e)
    (hlive : e.expired now = false) :
    cleanupExpired ns key now st = st := by
  obtain ⟨l1, l2, hst, hother⟩ := findEntry_decomp hwf hfind
  apply cleanupExpired_of_none
  intro x hx h1 h2
  rw [hst] at hx
  rcases List.mem_append.mp hx with hm | hm
  · exact absurd ⟨h1, h2⟩ (hother x (Or.inl hm))
  · rcases List.mem_cons.mp hm with rfl | hm
    · exact hlive
    · exact absurd ⟨h1, h2⟩ (hother x (Or.inr hm))

theorem cleanup_of_absent {st : Store} {ns key : String} {now : Nat}
    (habs : findEntry st ns key = none) :
    cleanupExpired ns key now st = st := by
  apply cleanupExpired_of_none
  intro x hx h1 h2
  exact absurd ⟨h1, h2⟩ (findEntry_eq_none.mp habs x hx)

theorem findEntry_cas_map {st : Store} {ns key : String} {row : Entry}
    (sv ctv : String) (ea : Option Nat) (nowv w : Nat)
    (h : findEntry st ns key = some row) (hver : row.version = w) :
    findEntry (st.map (fun e =>
      if e.ns == ns && e.key == key && e.version == w then
        { e with value := sv, contentType := ctv, version := e.version + 1,
                 expiresAt := ea, updatedAt := nowv }
      else e)) ns key =
    some { row with value := sv, contentType := ctv,
                    version := row.version + 1,
                    expiresAt := ea, updatedAt := nowv } := by
  unfold findEntry at h ⊢
  have hrow := List.find?_some h
  rw [List.find?_map]
  have hcomp : ((fun e : Entry => e.ns == ns && e.key == key) ∘
      (fun e : Entry =>
        if e.ns == ns && e.key == key && e.version == w then
          { e with value := sv, contentType := ctv, version := e.version + 1,
                   expiresAt := ea, updatedAt := nowv }
        else e)) =
      (fun e : Entry => e.ns == ns && e.key == key) := by
    funext e
    by_cases hc : (e.ns == ns && e.key == key && e.version == w) = true
    · simp [Function.comp, hc]
    · simp [Function.comp, hc]
  rw [hcomp, h]
  simp only [Option.map_some']
  have hfull : (row.ns == ns && row.key == key && row.version == w) = true := by
    simp only [Bool.and_eq_true] at hrow ⊢
    exact ⟨⟨hrow.1, hrow.2⟩, by simp [hver]⟩
  exact congrArg some (if_pos hfull)

theorem cas_changes_one {st : Store} {ns key : String} {e : Entry} {w : Nat}
    (hwf : WF st) (hfind : findEntry st ns key = some e) (hver : e.version = w) :
    (st.filter (fun x => x.ns == ns && x.key == key && x.version == w)).length = 1 := by
  obtain ⟨l1, l2, hst, hother⟩ := findEntry_decomp hwf hfind
  obtain ⟨_, hns, hkey⟩ := findEntry_some hfind
  rw [hst, List.filter_append, List.filter_cons]
  have he : (e.ns == ns && e.key == key && e.version == w) = true := by
    simp [hns, hkey, hver]
  have hl1 : l1.filter (fun x => x.ns == ns && x.key == key && x.version == w) = [] := by
    rw [List.filter_eq_nil_iff]
    intro x hx hc
    simp only [Bool.and_eq_true, beq_iff_eq] at hc
    exact hother x (Or.inl hx) ⟨hc.1.1, hc.1.2⟩
  have hl2 : l2.filter (fun x => x.ns == ns && x.key == key && x.version == w) = [] := by
    rw [List.filter_eq_nil_iff]
    intro x hx hc
    simp only [Bool.and_eq_true, beq_iff_eq] at hc
    exact hother x (Or.inr hx) ⟨hc.1.1, hc.1.2⟩
  simp [hl1, hl2, he]

/-- C1: CAS semantics of `set`.  With `cas = w`: if the key has no physical
row the call fails with the key-absent CAS error and leaves the store
unchanged; if the row is present but expired it fails with the key-absent
CAS error and the reader-visible (live) view of the store is unchanged (the
expired row itself is lazily deleted by the internal `get`); if the row is
live at version `v`, then `cas = v` succeeds, returns `v + 1` and stores the
row at version `v + 1`, while `cas ≠ v` fails with the version-mismatch CAS
error and leaves the store entirely unchanged. -/
theorem C1_cas_semantics {α : Type} (J : JsCodec α) (ns key : String) (v : α)
    (ttl : Option Nat) (ct : Option String) (w : Nat) (now : Nat) (st : Store)
    (hwf : WF st) :
    (findEntry st ns key = none →
      set J ns key v ⟨ttl, ct, some w⟩ now st = (.error .casKeyAbsent, st)) ∧
    (∀ e, findEntry st ns key = some e → e.expired now = true →
      (set J ns key v ⟨ttl, ct, some w⟩ now st).1 = .error .casKeyAbsent ∧
      liveView now (set J ns key v ⟨ttl, ct, some w⟩ now st).2 = liveView now st) ∧
    (∀ e, findEntry st ns key = some e → e.expired now = false →
      (w = e.version →
        (set J ns key v ⟨ttl, ct, some w⟩ now st).1 = .ok (e.version + 1) ∧
        findEntry (set J ns key v ⟨ttl, ct, some w⟩ now st).2 ns key =
          some { e with value := serializeVal J (ct.getD "application/json") v,
                        contentType := ct.getD "application/json",
                        version := e.version + 1,
                        expiresAt := ttlExpiry ttl now, updatedAt := now }) ∧
      (w ≠ e.version →
        set J ns key v ⟨ttl, ct, some w⟩ now st = (.error .casVersionMismatch, st))) := by
  refine ⟨?_, ?_, ?_⟩
  · intro habs
    have hcl : cleanupExpired ns key now st = st := cleanup_of_absent habs
    have hget : get J ns key {} now st = (none, st) := by
      rw [get_of_none J (by rw [hcl]; exact habs), hcl]
    simp [set, hget]
  · intro e hfind hexp
    have hN : findEntry (cleanupExpired ns key now st) ns key = none :=
      findEntry_cleanup_of_expired hwf hfind hexp
    have hget : get J ns key {} now st = (none, cleanupExpired ns key now st) :=
      get_of_none J hN
    constructor
    · simp [set, hget]
    · have hsnd : (set J ns key v ⟨ttl, ct, some w⟩ now st).2 =
          cleanupExpired ns key now st := by
        simp [set, hget]
      rw [hsnd, liveView_cleanupExpired]
  · intro e hfind hlive
    have hcl : cleanupExpired ns key now st = st := cleanup_of_found_live hwf hfind hlive
    have hget1 : (get J ns key {} now st).1 =
        some ⟨(if e.contentType == "application/json" then J.parse e.value
               else J.ofBuffer e.value),
              ⟨e.version, e.expiresAt, e.updatedAt, e.contentType⟩⟩ :=
      get_of_found_not_expired J hfind hlive
    have hget2 : (get J ns key {} now st).2 = st := by rw [get_snd, hcl]
    have hget : get J ns key {} now st =
        (some ⟨(if e.contentType == "application/json" then J.parse e.value
               else J.ofBuffer e.value),
              ⟨e.version, e.expiresAt, e.updatedAt, e.contentType⟩⟩, st) := by
      rw [Prod.ext_iff]
      exact ⟨hget1, hget2⟩
    constructor
    · intro hw
      subst hw
      have hch := cas_changes_one hwf hfind rfl
      have hfm := findEntry_cas_map (serializeVal J (ct.getD "application/json") v)
        (ct.getD "application/json") (ttlExpiry ttl now) now e.version hfind rfl
      constructor
      · simp [set, hget, hch]
      · have hsnd : (set J ns key v ⟨ttl, ct, some e.version⟩ now st).2 =
            st.map (fun x =>
              if x.ns == ns && x.key == key && x.version == e.version then
                { x with value := serializeVal J (ct.getD "application/json") v,
                         contentType := ct.getD "application/json",
                         version := x.version + 1,
                         expiresAt := ttlExpiry ttl now, updatedAt := now }
              else x) := by
          simp [set, hget, hch]
        rw [hsnd, hfm]
    · intro hw
      have hbne : (e.version != w) = true := by
        simp only [bne_iff_ne, ne_eq]
        exact fun hh => hw (hh.symm)
      simp [set, hget, hbne]

theorem C1_cas_semantics_witness :
    (set idCodec "n" "k" "w" ⟨none, none, some 3⟩ 5
      [(⟨"n", "k", "v", "application/json", 3, none, 0⟩ : Entry)]).1 = .ok 4 ∧
    set idCodec "n" "k" "w" ⟨none, none, some 2⟩ 5
      [(⟨"n", "k", "v", "application/json", 3, none, 0⟩ : Entry)] =
      (.error .casVersionMismatch,
       [(⟨"n", "k", "v", "application/json", 3, none, 0⟩ : Entry)]) ∧
    set idCodec "n" "k" "w" ⟨none, none, some 3⟩ 5 ([] : Store) =
      (.error .casKeyAbsent, []) := by
  refine ⟨?_, ?_, ?_⟩
  · have h := C1_cas_semantics idCodec "n" "k" "w" none none 3 5
      [⟨"n", "k", "v", "application/json", 3, none, 0⟩] (by simp [WF])
    exact ((h.2.2 (⟨"n", "k", "v", "application/json", 3, none, 0⟩ : Entry)
      (by decide) (by decide)).1 (by decide)).1
  · have h := C1_cas_semantics idCodec "n" "k" "w" none none 2 5
      [⟨"n", "k", "v", "application/json", 3, none, 0⟩] (by simp [WF])
    exact (h.2.2 (⟨"n", "k", "v", "application/json", 3, none, 0⟩ : Entry)
      (by decide) (by decide)).2 (by decide)
  · have h := C1_cas_semantics idCodec "n" "k" "w" none none 3 5 [] (by simp [WF])
    exact h.1 (by decide)

/-! ### Cursor codec round trip -/

theorem char_toNat_lt (c : Char) : c.toNat < 1114112 := by
  have h := c.valid
  unfold UInt32.isValidChar Nat.isValidChar at h
  rcases h with h | ⟨_, h2⟩
  · exact Nat.lt_trans h (by norm_num)
  · exact h2

theorem b64val_b64char : ∀ n, n < 64 → b64val (b64char n) = some n := by decide

theorem b64val_pad : b64val '=' = none := by decide

theorem b64_decode_encode : ∀ (l : List Nat), (∀ b ∈ l, b < 256) →
    b64decodeVals ((b64encodeBytes l).filterMap b64val) = l
  | [], _ => rfl
  | [x], h => by
    have hx : x < 256 := h x (by simp)
    have h1 := b64val_b64char (x / 4) (by omega)
    have h2 := b64val_b64char (x % 4 * 16) (by omega)
    simp [b64encodeBytes, List.filterMap_cons, h1, h2, b64val_pad, b64decodeVals]
    omega
  | [x, y], h => by
    have hx : x < 256 := h x (by simp)
    have hy : y < 256 := h y (by simp)
    have h1 := b64val_b64char (x / 4) (by omega)
    have h2 := b64val_b64char (x % 4 * 16 + y / 16) (by omega)
    have h3 := b64val_b64char (y % 16 * 4) (by omega)
    simp [b64encodeBytes, List.filterMap_cons, h1, h2, h3, b64val_pad, b64decodeVals]
    omega
  | x :: y :: z :: rest, h => by
    have hx : x < 256 := h x (by simp)
    have hy : y < 256 := h y (by simp)
    have hz : z < 256 := h z (by simp)
    have h1 := b64val_b64char (x / 4) (by omega)
    have h2 := b64val_b64char (x % 4 * 16 + y / 16) (by omega)
    have h3 := b64val_b64char (y % 16 * 4 + z / 64) (by omega)
    have h4 := b64val_b64char (z % 64) (by omega)
    have ih := b64_decode_encode rest (fun b hb => h b (by simp [hb]))
    simp [b64encodeBytes, List.filterMap_cons, h1, h2, h3, h4, b64decodeVals, ih]
    omega

theorem utf8Bytes_len_pos (c : Char) : utf8Bytes c ≠ [] := by
  unfold utf8Bytes
  split
  · simp
  · split
    · simp
    · split <;> simp

theorem utf8Bytes_lt (c : Char) : ∀ b ∈ utf8Bytes c, b < 256 := by
  intro b hb
  have hn := char_toNat_lt c
  unfold utf8Bytes at hb
  split at hb
  · simp at hb; omega
  · split at hb
    · simp at hb; rcases hb with rfl | rfl <;> omega
    · split at hb
      · simp at hb; rcases hb with rfl | rfl | rfl <;> omega
      · simp at hb; rcases hb with rfl | rfl | rfl | rfl <;> omega

theorem utf8DecodeAux_encode : ∀ (cs : List Char) (f : Nat),
    (cs.foldr (fun c acc => utf8Bytes c ++ acc) []).length ≤ f →
    utf8DecodeAux f (cs.foldr (fun c acc => utf8Bytes c ++ acc) []) = cs := by
  intro cs
  induction cs with
  | nil =>
    intro f _
    cases f <;> rfl
  | cons c cs ih =>
    intro f hf
    simp only [List.foldr_cons] at hf ⊢
    have hn := char_toNat_lt c
    by_cases h1 : c.toNat < 128
    · have hb : utf8Bytes c = [c.toNat] := by
        unfold utf8Bytes; rw [if_pos h1]
      rw [hb] at hf ⊢
      simp only [List.length_append, List.length_cons, List.length_nil] at hf
      obtain ⟨f', rfl⟩ : ∃ f', f = f' + 1 := ⟨f - 1, by omega⟩
      simp only [List.singleton_append, List.cons_append, List.nil_append,
        List.append_eq]
      simp only [utf8DecodeAux]
      rw [if_pos h1, Char.ofNat_toNat]
      rw [ih f' (by omega)]
    · by_cases h2 : c.toNat < 2048
      · have hb : utf8Bytes c = [192 + c.toNat / 64, 128 + c.toNat % 64] := by
          unfold utf8Bytes; rw [if_neg h1, if_pos h2]
        rw [hb] at hf ⊢
        simp only [List.length_append, List.length_cons, List.length_nil] at hf
        obtain ⟨f', rfl⟩ : ∃ f', f = f' + 1 := ⟨f - 1, by omega⟩
        simp only [List.singleton_append, List.cons_append, List.nil_append,
          List.append_eq]
        simp only [utf8DecodeAux]
        have hc1 : ¬(192 + c.toNat / 64 < 128) := by omega
        have hc2 : 194 ≤ 192 + c.toNat / 64 ∧ 192 + c.toNat / 64 ≤ 223 := by
          constructor <;> omega
        have hc3 : isCont (128 + c.toNat % 64) = true := by
          simp only [isCont, Bool.and_eq_true, decide_eq_true_eq]
          constructor <;> omega
        rw [if_neg hc1, if_pos hc2, if_pos hc3]
        have harith : (192 + c.toNat / 64 - 192) * 64 + (128 + c.toNat % 64 - 128) =
            c.toNat := by omega
        rw [harith, Char.ofNat_toNat]
        rw [ih f' (by omega)]
      · by_cases h3 : c.toNat < 65536
        · have hb : utf8Bytes c =
              [224 + c.toNat / 4096, 128 + c.toNat / 64 % 64, 128 + c.toNat % 64] := by
            unfold utf8Bytes; rw [if_neg h1, if_neg h2, if_pos h3]
          rw [hb] at hf ⊢
          simp only [List.length_append, List.length_cons, List.length_nil] at hf
          obtain ⟨f', rfl⟩ : ∃ f', f = f' + 1 := ⟨f - 1, by omega⟩
          simp only [List.singleton_append, List.cons_append, List.nil_append,
            List.append_eq]
          simp only [utf8DecodeAux]
          have hc1 : ¬(224 + c.toNat / 4096 < 128) := by omega
          have hc2 : ¬(194 ≤ 224 + c.toNat / 4096 ∧ 224 + c.toNat / 4096 ≤ 223) := by
            rw [not_and_or]; right; omega
          have hc3 : 224 ≤ 224 + c.toNat / 4096 ∧ 224 + c.toNat / 4096 ≤ 239 := by
            constructor <;> omega
          have hc4 : (isCont (128 + c.toNat / 64 % 64) &&
              isCont (128 + c.toNat % 64)) = true := by
            simp only [isCont, Bool.and_eq_true, decide_eq_true_eq]
            refine ⟨⟨?_, ?_⟩, ?_, ?_⟩ <;> omega
          rw [if_neg hc1, if_neg hc2, if_pos hc3, if_pos hc4]
          have harith : (224 + c.toNat / 4096 - 224) * 4096 +
              (128 + c.toNat / 64 % 64 - 128) * 64 + (128 + c.toNat % 64 - 128) =
              c.toNat := by omega
          rw [harith, Char.ofNat_toNat]
          rw [ih f' (by omega)]
        · have hb : utf8Bytes c =
              [240 + c.toNat / 262144, 128 + c.toNat / 4096 % 64,
               128 + c.toNat / 64 % 64, 128 + c.toNat % 64] := by
            unfold utf8Bytes; rw [if_neg h1, if_neg h2, if_neg h3]
          rw [hb] at hf ⊢
          simp only [List.length_append, List.length_cons, List.length_nil] at hf
          obtain ⟨f', rfl⟩ : ∃ f', f = f' + 1 := ⟨f - 1, by omega⟩
          simp only [List.singleton_append, List.cons_append, List.nil_append,
            List.append_eq]
          simp only [utf8DecodeAux]
          have hc1 : ¬(240 + c.toNat / 262144 < 128) := by omega
          have hc2 : ¬(194 ≤ 240 + c.toNat / 262144 ∧ 240 + c.toNat / 262144 ≤ 223) := by
            rw [not_and_or]; right; omega
          have hc3 : ¬(224 ≤ 240 + c.toNat / 262144 ∧ 240 + c.toNat / 262144 ≤ 239) := by
            rw [not_and_or]; right; omega
          have hc4 : 240 ≤ 240 + c.toNat / 262144 ∧ 240 + c.toNat / 262144 ≤ 244 := by
            constructor <;> omega
          have hc5 : (isCont (128 + c.toNat / 4096 % 64) &&
              isCont (128 + c.toNat / 64 % 64) && isCont (128 + c.toNat % 64)) = true := by
            simp only [isCont, Bool.and_eq_true, decide_eq_true_eq]
            refine ⟨⟨⟨?_, ?_⟩, ?_, ?_⟩, ?_, ?_⟩ <;> omega
          rw [if_neg hc1, if_neg hc2, if_neg hc3, if_pos hc4, if_pos hc5]
          have harith : (240 + c.toNat / 262144 - 240) * 262144 +
              (128 + c.toNat / 4096 % 64 - 128) * 4096 +
              (128 + c.toNat / 64 % 64 - 128) * 64 + (128 + c.toNat % 64 - 128) =
              c.toNat := by omega
          rw [harith, Char.ofNat_toNat]
          rw [ih f' (by omega)]

theorem strBytes_lt (s : String) : ∀ b ∈ strBytes s, b < 256 := by
  unfold strBytes
  induction s.data with
  | nil => simp
  | cons c cs ih =>
    intro b hb
    simp only [List.foldr_cons, List.mem_append] at hb
    rcases hb with hb | hb
    · exact utf8Bytes_lt c b hb
    · exact ih b hb

theorem utf8Decode_strBytes (s : String) : utf8Decode (strBytes s) = s.data :=
  utf8DecodeAux_encode s.data _ (le_refl _)

theorem decodeCursor_encodeCursor (k : String) : decodeCursor (encodeCursor k) = k := by
  unfold decodeCursor encodeCursor b64decode
  rw [show (String.mk (b64encodeBytes (strBytes k))).data = b64encodeBytes (strBytes k)
    from rfl]
  rw [b64_decode_encode _ (strBytes_lt k)]
  rw [utf8Decode_strBytes]

theorem encodeCursor_ne_empty {k : String} (h : k ≠ "") : encodeCursor k ≠ "" := by
  have hdata : k.data ≠ [] := by
    intro hd
    apply h
    cases k with
    | mk l => cases hd; rfl
  have hbytes : strBytes k ≠ [] := by
    unfold strBytes
    cases hl : k.data with
    | nil => exact absurd hl hdata
    | cons c cs =>
      simp only [List.foldr_cons]
      intro happ
      exact utf8Bytes_len_pos c (List.append_eq_nil.mp happ).1
  have hmk : ∀ (l : List Char), l ≠ [] → String.mk l ≠ "" := by
    intro l hl hEq
    exact hl (congrArg String.data hEq)
  unfold encodeCursor
  apply hmk
  cases hb : strBytes k with
  | nil => exact absurd hb hbytes
  | cons x rest =>
    cases rest with
    | nil => simp [b64encodeBytes]
    | cons y rest2 =>
      cases rest2 with
      | nil => simp [b64encodeBytes]
      | cons z rest3 => simp [b64encodeBytes]

/-! ### Evaluation lemmas for `list` -/

theorem list_unfold (ns : String) (opts : ListOptions) (now : Nat) (st : Store) :
    list ns opts now st =
      (let lim := opts.limit.getD 100
       let rows := if st.any (fun e => e.ns == ns && e.expired now) then []
                   else (queryKeys st ns opts.pfx (startKeyOf opts.cursor)).take (lim + 1)
       let keys := if decide (rows.length > lim) then rows.take lim else rows
       if decide (rows.length > lim) then
         match keys.getLast? with
         | none => Except.error KVError.cursorTypeError
         | some k => Except.ok ⟨keys, some (encodeCursor k)⟩
       else Except.ok ⟨keys, none⟩) := rfl

theorem any_expired_false {st : Store} {ns : String} {now : Nat}
    (h : ∀ e ∈ st, e.ns = ns → e.expired now = false) :
    st.any (fun e => e.ns == ns && e.expired now) = false := by
  rw [List.any_eq_false]
  intro x hx
  simp only [Bool.and_eq_true, beq_iff_eq, not_and]
  intro h1
  rw [h x hx h1]
  simp

theorem list_page_small (ns : String) (opts : ListOptions) (now : Nat) (st : Store)
    (hnoexp : st.any (fun e => e.ns == ns && e.expired now) = false)
    (hlen : (queryKeys st ns opts.pfx (startKeyOf opts.cursor)).length ≤
      opts.limit.getD 100) :
    list ns opts now st =
      .ok ⟨queryKeys st ns opts.pfx (startKeyOf opts.cursor), none⟩ := by
  rw [list_unfold]
  simp only [hnoexp, Bool.false_eq_true, if_false]
  have ht : (queryKeys st ns opts.pfx (startKeyOf opts.cursor)).take
      (opts.limit.getD 100 + 1) = queryKeys st ns opts.pfx (startKeyOf opts.cursor) :=
    List.take_of_length_le (by omega)
  rw [ht]
  have hm : decide ((queryKeys st ns opts.pfx (startKeyOf opts.cursor)).length >
      opts.limit.getD 100) = false := by
    simp
    omega
  rw [hm]
  simp

theorem list_page_more (ns : String) (opts : ListOptions) (now : Nat) (st : Store)
    {b : String}
    (hnoexp : st.any (fun e => e.ns == ns && e.expired now) = false)
    (hL : 1 ≤ opts.limit.getD 100)
    (hlen : opts.limit.getD 100 <
      (queryKeys st ns opts.pfx (startKeyOf opts.cursor)).length)
    (hb : (queryKeys st ns opts.pfx (startKeyOf opts.cursor))[opts.limit.getD 100 - 1]? =
      some b) :
    list ns opts now st =
      .ok ⟨(queryKeys st ns opts.pfx (startKeyOf opts.cursor)).take (opts.limit.getD 100),
           some (encodeCursor b)⟩ := by
  rw [list_unfold]
  simp only [hnoexp, Bool.false_eq_true, if_false]
  have hlt : ((queryKeys st ns opts.pfx (startKeyOf opts.cursor)).take
      (opts.limit.getD 100 + 1)).length = opts.limit.getD 100 + 1 := by
    rw [List.length_take]
    omega
  have hm : decide (((queryKeys st ns opts.pfx (startKeyOf opts.cursor)).take
      (opts.limit.getD 100 + 1)).length > opts.limit.getD 100) = true := by
    rw [hlt]
    simp
  rw [hm]
  simp only [if_true]
  rw [List.take_take, min_eq_left (by omega : opts.limit.getD 100 ≤ opts.limit.getD 100 + 1)]
  have hgl : ((queryKeys st ns opts.pfx (startKeyOf opts.cursor)).take
      (opts.limit.getD 100)).getLast? = some b := by
    rw [List.getLast?_eq_getElem?, List.length_take,
      min_eq_left (by omega : opts.limit.getD 100 ≤
        (queryKeys st ns opts.pfx (startKeyOf opts.cursor)).length),
      List.getElem?_take, if_pos (by omega)]
    exact hb
  rw [hgl]

theorem list_page_zero (ns : String) (c : Option String) (p : Option String)
    (now : Nat) (st : Store)
    (hnoexp : st.any (fun e => e.ns == ns && e.expired now) = false)
    (hlen : 1 ≤ (queryKeys st ns p (startKeyOf c)).length) :
    list ns ⟨some 0, c, p⟩ now st = .error .cursorTypeError := by
  rw [list_unfold]
  simp only [hnoexp, Bool.false_eq_true, if_false]
  have h0 : (⟨some 0, c, p⟩ : ListOptions).limit.getD 100 = 0 := rfl
  rw [h0]
  have hlt : ((queryKeys st ns p (startKeyOf c)).take (0 + 1)).length = 1 := by
    rw [List.length_take]
    omega
  have hm : decide (((queryKeys st ns (⟨some 0, c, p⟩ : ListOptions).pfx
      (startKeyOf (⟨some 0, c, p⟩ : ListOptions).cursor)).take (0 + 1)).length > 0) =
      true := by
    show decide (((queryKeys st ns p (startKeyOf c)).take (0 + 1)).length > 0) = true
    rw [hlt]
    simp
  rw [hm]
  simp only [if_true, List.take_zero]
  rfl

/-! ### Structure of the key selection -/

theorem queryKeys_eq (st : Store) (ns : String) (p : Option String) (s : String) :
    queryKeys st ns p s =
      (nsKeys st ns p).filter (fun k => if s ≠ "" then strLtb s k else true) := by
  unfold queryKeys nsKeys
  have h1 : st.filter (fun e =>
        e.ns == ns && pfxCond p e.key && (if s ≠ "" then strLtb s e.key else true)) =
      (st.filter (fun e => e.ns == ns && pfxCond p e.key)).filter
        (fun e => if s ≠ "" then strLtb s e.key else true) := by
    rw [List.filter_filter]
    exact List.filter_congr (fun x _ => by rw [Bool.and_comm])
  rw [h1]
  have h2 : ((st.filter (fun e => e.ns == ns && pfxCond p e.key)).filter
        (fun e => if s ≠ "" then strLtb s e.key else true)).map (·.key) =
      ((st.filter (fun e => e.ns == ns && pfxCond p e.key)).map (·.key)).filter
        (fun k => if s ≠ "" then strLtb s k else true) :=
    (@List.filter_map Entry String (fun k => if s ≠ "" then strLtb s k else true)
      (fun x => x.key) (st.filter (fun e => e.ns == ns && pfxCond p e.key))).symm
  rw [h2]
  refine @List.eq_of_perm_of_sorted String keyLe _ _ _ ?_ ?_ ?_
  · exact (List.perm_insertionSort _ _).trans
      ((List.perm_insertionSort keyLe _).symm.filter _)
  · exact List.sorted_insertionSort keyLe _
  · exact (List.sorted_insertionSort keyLe _).filter _

theorem queryKeys_empty_cursor (st : Store) (ns : String) (p : Option String) :
    queryKeys st ns p "" = nsKeys st ns p := by
  rw [queryKeys_eq]
  have h : (nsKeys st ns p).filter (fun k => if ("" : String) ≠ "" then strLtb "" k
      else true) = (nsKeys st ns p).filter (fun _ => true) :=
    List.filter_congr (fun x _ => by simp)
  rw [h, List.filter_true]

theorem nsKeys_sorted {st : Store} {ns : String} {p : Option String} (hwf : WF st) :
    (nsKeys st ns p).Sorted keyLt := by
  apply sorted_keyLt_of_nodup
  · exact List.sorted_insertionSort keyLe _
  · unfold nsKeys
    rw [(List.perm_insertionSort keyLe _).nodup_iff]
    show ((st.filter (fun e => e.ns == ns && pfxCond p e.key)).map (·.key)).Pairwise (· ≠ ·)
    rw [List.pairwise_map]
    have hsub : (st.filter (fun e => e.ns == ns && pfxCond p e.key)).Pairwise
        (fun a b => a.ns ≠ b.ns ∨ a.key ≠ b.key) :=
      hwf.sublist (List.filter_sublist st)
    apply hsub.imp_of_mem
    intro a b ha hb hr
    have hans : a.ns = ns := by
      have := (List.mem_filter.mp ha).2
      simp only [Bool.and_eq_true, beq_iff_eq] at this
      exact this.1
    have hbns : b.ns = ns := by
      have := (List.mem_filter.mp hb).2
      simp only [Bool.and_eq_true, beq_iff_eq] at this
      exact this.1
    rcases hr with hr | hr
    · exact absurd (hans.trans hbns.symm) hr
    · exact hr

theorem nsKeys_mem {st : Store} {ns : String} {p : Option String} {k : String} :
    k ∈ nsKeys st ns p ↔
      ∃ e, e ∈ st ∧ e.ns = ns ∧ pfxCond p e.key = true ∧ e.key = k := by
  unfold nsKeys
  rw [(List.perm_insertionSort keyLe _).mem_iff]
  simp only [List.mem_map, List.mem_filter, Bool.and_eq_true, beq_iff_eq]
  constructor
  · rintro ⟨e, ⟨he, hns, hp⟩, hk⟩
    exact ⟨e, he, hns, hp, hk⟩
  · rintro ⟨e, he, hns, hp, hk⟩
    exact ⟨e, ⟨he, hns, hp⟩, hk⟩

theorem nsKeys_length_le (st : Store) (ns : String) (p : Option String) :
    (nsKeys st ns p).length ≤ st.length := by
  unfold nsKeys
  rw [(List.perm_insertionSort keyLe _).length_eq, List.length_map]
  exact List.length_filter_le _ _

/-! ### Pagination: boundary arithmetic on sorted key lists -/

theorem sorted_filter_gt : ∀ {l : List String}, l.Sorted keyLt → ∀ {i : Nat} {b : String},
    l[i]? = some b → l.filter (fun k => strLtb b k) = l.drop (i + 1) := by
  intro l
  induction l with
  | nil =>
    intro _ i b hb
    simp at hb
  | cons x xs ih =>
    intro hs i b hb
    cases i with
    | zero =>
      rw [List.getElem?_cons_zero] at hb
      obtain rfl := Option.some.inj hb
      rw [List.filter_cons, if_neg (by simp [strLtb_irrefl])]
      rw [List.drop_succ_cons, List.drop_zero]
      apply List.filter_eq_self.mpr
      intro a ha
      exact (List.sorted_cons.mp hs).1 a ha
    | succ i =>
      rw [List.getElem?_cons_succ] at hb
      have hmem : b ∈ xs := by
        obtain ⟨hlt, rfl⟩ := List.getElem?_eq_some.mp hb
        exact List.getElem_mem hlt
      have hxb : keyLt x b := (List.sorted_cons.mp hs).1 b hmem
      have hneg : ¬(strLtb b x = true) := keyLt_asymm hxb
      rw [List.filter_cons, if_neg hneg]
      rw [List.drop_succ_cons]
      exact ih (List.sorted_cons.mp hs).2 hb

theorem getLast?_take_of_lt {α : Type} {l : List α} {n : Nat} (h1 : 1 ≤ n)
    (h2 : n ≤ l.length) : (l.take n).getLast? = l[n - 1]? := by
  rw [List.getLast?_eq_getElem?, List.length_take, min_eq_left h2,
    List.getElem?_take, if_pos (by omega)]

theorem mem_nsKeys_ne_empty {st : Store} {ns : String} {p : Option String} {k : String}
    (hne : ∀ e ∈ st, e.ns = ns → e.key ≠ "") (hk : k ∈ nsKeys st ns p) : k ≠ "" := by
  obtain ⟨e, he, hns, _, rfl⟩ := nsKeys_mem.mp hk
  exact hne e he hns

theorem filter_after_cursor {st : Store} {ns : String} {p : Option String} {b : String}
    (hb : b ≠ "") :
    (nsKeys st ns p).filter (fun k => if (b : String) ≠ "" then strLtb b k else true) =
      (nsKeys st ns p).filter (fun k => strLtb b k) :=
  List.filter_congr (fun x _ => by rw [if_pos hb])

theorem list_page_small' (ns : String) (L : Nat) (c : Option String)
    (p : Option String) (now : Nat) (st : Store)
    (hnoexp : st.any (fun e => e.ns == ns && e.expired now) = false)
    (hlen : (queryKeys st ns p (startKeyOf c)).length ≤ L) :
    list ns ⟨some L, c, p⟩ now st = .ok ⟨queryKeys st ns p (startKeyOf c), none⟩ :=
  list_page_small ns ⟨some L, c, p⟩ now st hnoexp hlen

theorem list_page_more' (ns : String) (L : Nat) (c : Option String)
    (p : Option String) (now : Nat) (st : Store) {b : String}
    (hnoexp : st.any (fun e => e.ns == ns && e.expired now) = false)
    (hL : 1 ≤ L) (hlen : L < (queryKeys st ns p (startKeyOf c)).length)
    (hb : (queryKeys st ns p (startKeyOf c))[L - 1]? = some b) :
    list ns ⟨some L, c, p⟩ now st =
      .ok ⟨(queryKeys st ns p (startKeyOf c)).take L, some (encodeCursor b)⟩ :=
  list_page_more ns ⟨some L, c, p⟩ now st hnoexp hL hlen hb

theorem listAll_drop {st : Store} {ns : String} {p : Option String} {now L : Nat}
    (hwf : WF st) (hnoexp : st.any (fun e => e.ns == ns && e.expired now) = false)
    (hne : ∀ e ∈ st, e.ns = ns → e.key ≠ "") (hL : 1 ≤ L) :
    ∀ (fuel j : Nat) (b : String), (nsKeys st ns p)[j]? = some b →
    (nsKeys st ns p).length < j + 1 + fuel →
    listAll ns p L now st fuel (some (encodeCursor b)) =
      some ((nsKeys st ns p).drop (j + 1)) := by
  intro fuel
  induction fuel with
  | zero =>
    intro j b hj hlen
    obtain ⟨hlt, _⟩ := List.getElem?_eq_some.mp hj
    exfalso
    omega
  | succ fuel ih =>
    intro j b hj hlen
    have hjlt : j < (nsKeys st ns p).length := (List.getElem?_eq_some.mp hj).1
    have hbmem : b ∈ nsKeys st ns p := by
      obtain ⟨hlt, rfl⟩ := List.getElem?_eq_some.mp hj
      exact List.getElem_mem hlt
    have hbne : b ≠ "" := mem_nsKeys_ne_empty hne hbmem
    have hsk : startKeyOf (some (encodeCursor b)) = b := by
      show (if encodeCursor b ≠ "" then decodeCursor (encodeCursor b) else "") = b
      rw [if_pos (encodeCursor_ne_empty hbne), decodeCursor_encodeCursor]
    have hA : (nsKeys st ns p).Sorted keyLt := nsKeys_sorted hwf
    have hrem : queryKeys st ns p (startKeyOf (some (encodeCursor b))) =
        (nsKeys st ns p).drop (j + 1) := by
      rw [hsk, queryKeys_eq, filter_after_cursor hbne, sorted_filter_gt hA hj]
    by_cases hcase : (nsKeys st ns p).length ≤ j + 1 + L
    · have hpage := list_page_small' ns L (some (encodeCursor b)) p now st hnoexp
        (by rw [hrem, List.length_drop]; omega)
      rw [hrem] at hpage
      simp only [listAll, hpage]
    · push_neg at hcase
      have hjL : j + L < (nsKeys st ns p).length := by omega
      obtain ⟨b', hb'⟩ : ∃ b', (nsKeys st ns p)[j + L]? = some b' :=
        ⟨_, List.getElem?_eq_getElem hjL⟩
      have hbQ : (queryKeys st ns p (startKeyOf (some (encodeCursor b))))[L - 1]? =
          some b' := by
        rw [hrem, List.getElem?_drop]
        rw [show j + 1 + (L - 1) = j + L from by omega]
        exact hb'
      have hpage := list_page_more' ns L (some (encodeCursor b)) p now st hnoexp hL
        (by rw [hrem, List.length_drop]; omega) hbQ
      have hrec := ih (j + L) b' hb' (by omega)
      simp only [listAll, hpage, hrec]
      rw [hrem]
      rw [show (nsKeys st ns p).drop (j + L + 1) =
          ((nsKeys st ns p).drop (j + 1)).drop L from by rw [List.drop_drop]; congr 1; omega]
      rw [List.take_append_drop]

/-- C4 (amended): provided the namespace contains no physically present
expired row and no empty-string key, chained pagination with any fixed page
limit `L ≥ 1` — calling `list` with no cursor and then feeding back each
returned `nextCursor` until it is null — yields exactly the live keys of the
namespace, each exactly once, in ascending key order; and a single page's
`nextCursor` is non-null iff more matching keys exist beyond the returned
page.  (Amended from the claim: a physically present expired row makes every
page empty — see the counterexample — and a key equal to `""` would make the
emitted cursor falsy and restart the scan.) -/
theorem C4_pagination (ns : String) (now L fuel : Nat) (st : Store)
    (hwf : WF st)
    (hnoexp : ∀ e ∈ st, e.ns = ns → e.expired now = false)
    (hne : ∀ e ∈ st, e.ns = ns → e.key ≠ "")
    (hL : 1 ≤ L) (hfuel : st.length < fuel) :
    (∃ ks, listAll ns none L now st fuel none = some ks ∧ ks.Sorted keyLt ∧
      (∀ k, k ∈ ks ↔ ∃ e, e ∈ st ∧ e.ns = ns ∧ e.key = k)) ∧
    (∀ c ks nc, list ns ⟨some L, c, none⟩ now st = .ok ⟨ks, nc⟩ →
      (nc ≠ none ↔ ∃ k, (∃ e, e ∈ st ∧ e.ns = ns ∧ e.key = k) ∧
        (startKeyOf c ≠ "" → keyLt (startKeyOf c) k) ∧ k ∉ ks)) := by
  have hanyf := any_expired_false hnoexp
  have hq0 : queryKeys st ns none (startKeyOf (none : Option String)) =
      nsKeys st ns none := queryKeys_empty_cursor st ns none
  have hmemA : ∀ k, k ∈ nsKeys st ns none ↔ ∃ e, e ∈ st ∧ e.ns = ns ∧ e.key = k := by
    intro k
    rw [nsKeys_mem]
    constructor
    · rintro ⟨e, he, hns, _, hk⟩
      exact ⟨e, he, hns, hk⟩
    · rintro ⟨e, he, hns, hk⟩
      exact ⟨e, he, hns, rfl, hk⟩
  constructor
  · obtain ⟨f, rfl⟩ : ∃ f, fuel = f + 1 := ⟨fuel - 1, by omega⟩
    by_cases hsmall : (nsKeys st ns none).length ≤ L
    · have hpage := list_page_small' ns L none none now st hanyf (by rw [hq0]; exact hsmall)
      rw [hq0] at hpage
      refine ⟨nsKeys st ns none, ?_, nsKeys_sorted hwf, hmemA⟩
      simp only [listAll, hpage]
    · push_neg at hsmall
      obtain ⟨b0, hb0⟩ : ∃ b, (nsKeys st ns none)[L - 1]? = some b :=
        ⟨_, List.getElem?_eq_getElem (by omega)⟩
      have hpage := list_page_more' ns L none none now st hanyf hL
        (by rw [hq0]; exact hsmall) (by rw [hq0]; exact hb0)
      have hchain := listAll_drop hwf hanyf hne hL f (L - 1) b0 hb0
        (by have := nsKeys_length_le st ns none; omega)
      refine ⟨nsKeys st ns none, ?_, nsKeys_sorted hwf, hmemA⟩
      simp only [listAll, hpage, hchain]
      rw [hq0]
      rw [show L - 1 + 1 = L from by omega]
      rw [List.take_append_drop]
  · intro c ks nc hpage
    have hQs : (queryKeys st ns none (startKeyOf c)).Sorted keyLt := by
      rw [queryKeys_eq]
      exact (nsKeys_sorted hwf).filter _
    have hmemQ : ∀ k, k ∈ queryKeys st ns none (startKeyOf c) ↔
        (k ∈ nsKeys st ns none ∧
          (startKeyOf c ≠ "" → keyLt (startKeyOf c) k)) := by
      intro k
      rw [queryKeys_eq, List.mem_filter]
      constructor
      · rintro ⟨hk, hcond⟩
        refine ⟨hk, fun hs => ?_⟩
        rw [if_pos hs] at hcond
        exact hcond
      · rintro ⟨hk, hcond⟩
        refine ⟨hk, ?_⟩
        by_cases hs : startKeyOf c ≠ ""
        · rw [if_pos hs]
          exact hcond hs
        · rw [if_neg hs]
    by_cases hsmall : (queryKeys st ns none (startKeyOf c)).length ≤ L
    · have hp := list_page_small' ns L c none now st hanyf hsmall
      have heq := hp.symm.trans hpage
      simp only [Except.ok.injEq, ListResult.mk.injEq] at heq
      obtain ⟨hks, hnc⟩ := heq
      constructor
      · intro hncne
        exact absurd hnc.symm hncne
      · rintro ⟨k, hk, himp, hnotin⟩
        exfalso
        apply hnotin
        rw [← hks]
        rw [hmemQ]
        exact ⟨(hmemA k).mpr hk, himp⟩
    · push_neg at hsmall
      obtain ⟨b, hb⟩ : ∃ b, (queryKeys st ns none (startKeyOf c))[L - 1]? = some b :=
        ⟨_, List.getElem?_eq_getElem (by omega)⟩
      have hp := list_page_more' ns L c none now st hanyf hL hsmall hb
      have heq := hp.symm.trans hpage
      simp only [Except.ok.injEq, ListResult.mk.injEq] at heq
      obtain ⟨hks, hnc⟩ := heq
      constructor
      · intro _
        obtain ⟨k0, hk0⟩ : ∃ k, (queryKeys st ns none (startKeyOf c))[L]? = some k :=
          ⟨_, List.getElem?_eq_getElem (by omega)⟩
        have hk0memL : k0 ∈ (queryKeys st ns none (startKeyOf c)).drop L := by
          have h0 : ((queryKeys st ns none (startKeyOf c)).drop L)[0]? = some k0 := by
            rw [List.getElem?_drop]
            rw [show L + 0 = L from by omega]
            exact hk0
          obtain ⟨hlt, rfl⟩ := List.getElem?_eq_some.mp h0
          exact List.getElem_mem hlt
        have hk0mem : k0 ∈ queryKeys st ns none (startKeyOf c) := by
          obtain ⟨hlt, rfl⟩ := List.getElem?_eq_some.mp hk0
          exact List.getElem_mem hlt
        have hk0Q := (hmemQ k0).mp hk0mem
        refine ⟨k0, (hmemA k0).mp hk0Q.1, hk0Q.2, ?_⟩
        rw [← hks]
        intro htake
        have hnd : (queryKeys st ns none (startKeyOf c)).Nodup :=
          nodup_of_sorted_keyLt hQs
        rw [← List.take_append_drop L (queryKeys st ns none (startKeyOf c))] at hnd
        have hcross := (List.pairwise_append.mp hnd).2.2
        exact hcross k0 htake k0 hk0memL rfl
      · intro _
        rw [← hnc]
        simp

theorem C4_pagination_witness :
    (∃ ks, listAll "n" none 1 0
        [(⟨"n", "a", "v", "application/json", 1, none, 0⟩ : Entry),
         ⟨"n", "b", "v", "application/json", 1, none, 0⟩,
         ⟨"n", "c", "v", "application/json", 1, none, 0⟩] 4 none = some ks ∧
      ks.Sorted keyLt ∧
      (∀ k, k ∈ ks ↔ ∃ e, e ∈
        [(⟨"n", "a", "v", "application/json", 1, none, 0⟩ : Entry),
         ⟨"n", "b", "v", "application/json", 1, none, 0⟩,
         ⟨"n", "c", "v", "application/json", 1, none, 0⟩] ∧ e.ns = "n" ∧ e.key = k)) ∧
    (∀ c ks nc, list "n" ⟨some 1, c, none⟩ 0
        [(⟨"n", "a", "v", "application/json", 1, none, 0⟩ : Entry),
         ⟨"n", "b", "v", "application/json", 1, none, 0⟩,
         ⟨"n", "c", "v", "application/json", 1, none, 0⟩] = .ok ⟨ks, nc⟩ →
      (nc ≠ none ↔ ∃ k, (∃ e, e ∈
          [(⟨"n", "a", "v", "application/json", 1, none, 0⟩ : Entry),
           ⟨"n", "b", "v", "application/json", 1, none, 0⟩,
           ⟨"n", "c", "v", "application/json", 1, none, 0⟩] ∧ e.ns = "n" ∧ e.key = k) ∧
        (startKeyOf c ≠ "" → keyLt (startKeyOf c) k) ∧ k ∉ ks)) :=
  C4_pagination "n" 0 1 4
    [⟨"n", "a", "v", "application/json", 1, none, 0⟩,
     ⟨"n", "b", "v", "application/json", 1, none, 0⟩,
     ⟨"n", "c", "v", "application/json", 1, none, 0⟩]
    (by unfold WF; decide) (by decide) (by decide) (by decide) (by decide)

/-- C4, counterexample to the claim as stated: the namespace holds the single
live key `"a"` (and a physically present expired row `"b"`), so the claim
requires chained pagination to yield `"a"` exactly once; because the expiry
filter in the `list` query is mis-correlated (`key = kv.key` inside the
`NOT EXISTS` subquery compares the subquery's own row with itself), any
expired row in the namespace empties every page, and the full scan yields
nothing. -/
theorem C4_pagination_counterexample :
    listAll "n" none 1 2000
      [(⟨"n", "a", "v", "application/json", 1, none, 0⟩ : Entry),
       ⟨"n", "b", "v", "application/json", 1, some 1000, 0⟩] 3 none = some [] ∧
    (⟨"n", "a", "v", "application/json", 1, none, 0⟩ : Entry) ∈
      [(⟨"n", "a", "v", "application/json", 1, none, 0⟩ : Entry),
       ⟨"n", "b", "v", "application/json", 1, some 1000, 0⟩] ∧
    (⟨"n", "a", "v", "application/json", 1, none, 0⟩ : Entry).expired 2000 = false := by
  decide

/-! ### LIKE prefix filtering -/

theorem likeMatch_pct : ∀ (s : List Char) (f : Nat), 2 * s.length + 2 ≤ f →
    likeMatchAux f ['%'] s = true
  | [], f, hf => by
    obtain ⟨f', rfl⟩ : ∃ f', f = f' + 1 := ⟨f - 1, by omega⟩
    obtain ⟨f'', rfl⟩ : ∃ f'', f' = f'' + 1 := ⟨f' - 1, by omega⟩
    rfl
  | c :: s, f, hf => by
    obtain ⟨f', rfl⟩ : ∃ f', f = f' + 1 := ⟨f - 1, by omega⟩
    have ih := likeMatch_pct s f' (by simp only [List.length_cons] at hf; omega)
    show (likeMatchAux f' [] (c :: s) || likeMatchAux f' ['%'] s) = true
    rw [ih, Bool.or_true]

theorem pfxCond_some (q k : String) : pfxCond (some q) k = likeMatch (q ++ "%") k := by
  show (if q ≠ "" then likeMatch (q ++ "%") k else true) = likeMatch (q ++ "%") k
  by_cases hq : q = ""
  · rw [if_neg (by simp [hq])]
    subst hq
    rw [show ("" ++ "%" : String) = "%" from by simp]
    unfold likeMatch
    rw [show ("%" : String).data = ['%'] from rfl]
    rw [likeMatch_pct k.data _ (by simp only [List.length_singleton]; omega)]
  · rw [if_pos hq]

/-- C6 (amended): provided the namespace contains no physically present
expired row and the matching keys fit in one page, `list` with a prefix `q`
returns exactly the keys of the namespace that match the SQL `LIKE` pattern
`q || '%'` under SQLite's default semantics — `%` matches any sequence, `_`
any single character, and ASCII letters match case-insensitively — in
ascending key order.  (Amended from the claim: `LIKE` pattern matching, not
literal prefix matching; a prefix containing `%` or `_` matches more keys
than the literal-prefix reading allows.) -/
theorem C6_like_filtering (ns q : String) (now L : Nat) (st : Store)
    (hwf : WF st)
    (hnoexp : ∀ e ∈ st, e.ns = ns → e.expired now = false)
    (hcount : (nsKeys st ns (some q)).length ≤ L) :
    ∃ ks, list ns ⟨some L, none, some q⟩ now st = .ok ⟨ks, none⟩ ∧
      ks.Sorted keyLt ∧
      (∀ k, k ∈ ks ↔ ∃ e, e ∈ st ∧ e.ns = ns ∧ likeMatch (q ++ "%") e.key = true ∧
        e.key = k) := by
  have hanyf := any_expired_false hnoexp
  have hq0 : queryKeys st ns (some q) (startKeyOf (none : Option String)) =
      nsKeys st ns (some q) := queryKeys_empty_cursor st ns (some q)
  have hpage := list_page_small' ns L none (some q) now st hanyf
    (by rw [hq0]; exact hcount)
  rw [hq0] at hpage
  refine ⟨nsKeys st ns (some q), hpage, nsKeys_sorted hwf, ?_⟩
  intro k
  rw [nsKeys_mem]
  constructor
  · rintro ⟨e, he, hns, hp, hk⟩
    rw [pfxCond_some] at hp
    exact ⟨e, he, hns, hp, hk⟩
  · rintro ⟨e, he, hns, hp, hk⟩
    rw [← pfxCond_some] at hp
    exact ⟨e, he, hns, hp, hk⟩

theorem C6_like_filtering_witness :
    ∃ ks, list "n" ⟨some 5, none, some "a_c"⟩ 0
        [(⟨"n", "abc", "v", "application/json", 1, none, 0⟩ : Entry)] =
        .ok ⟨ks, none⟩ ∧
      ks.Sorted keyLt ∧
      (∀ k, k ∈ ks ↔ ∃ e, e ∈
        [(⟨"n", "abc", "v", "application/json", 1, none, 0⟩ : Entry)] ∧
        e.ns = "n" ∧ likeMatch ("a_c" ++ "%") e.key = true ∧ e.key = k) :=
  C6_like_filtering "n" "a_c" 0 5
    [⟨"n", "abc", "v", "application/json", 1, none, 0⟩]
    (by unfold WF; decide) (by decide) (by decide)

/-- C6, counterexample to the claim as stated: with prefix `"a_c"`, `list`
returns the key `"abc"`, although `"abc"` does not start with the literal
string `"a_c"` — the `_` in the un-escaped `LIKE` pattern `a_c%` matches the
`b`. -/
theorem C6_like_filtering_counterexample :
    list "n" ⟨none, none, some "a_c"⟩ 0
      [(⟨"n", "abc", "v", "application/json", 1, none, 0⟩ : Entry)] =
      .ok ⟨["abc"], none⟩ ∧
    ("a_c".data.isPrefixOf "abc".data) = false := by
  decide

/-! ### Cursor decoding never fails -/

/-- C7 (amended): `list` never fails because of an undecodable cursor — with
any page limit of at least 1 it returns a normal page for every cursor
string whatsoever.  The base64 decoding is lenient (characters outside the
alphabet are ignored; a cursor with no base64 characters decodes to `""`,
which is falsy and restarts the scan from the beginning, repeating keys);
no `INVALID_CURSOR` error exists anywhere in the implementation. -/
theorem C7_lenient_cursor (ns : String) (opts : ListOptions) (now : Nat)
    (st : Store) (hL : 1 ≤ opts.limit.getD 100) :
    ∃ r, list ns opts now st = .ok r := by
  by_cases hany : st.any (fun e => e.ns == ns && e.expired now) = true
  · refine ⟨⟨[], none⟩, ?_⟩
    rw [list_unfold]
    simp only [hany, if_true]
    simp
  · rw [Bool.not_eq_true] at hany
    by_cases hm : opts.limit.getD 100 <
        (queryKeys st ns opts.pfx (startKeyOf opts.cursor)).length
    · obtain ⟨b, hb⟩ : ∃ b, (queryKeys st ns opts.pfx
          (startKeyOf opts.cursor))[opts.limit.getD 100 - 1]? = some b :=
        ⟨_, List.getElem?_eq_getElem (by omega)⟩
      exact ⟨_, list_page_more ns opts now st hany hL hm hb⟩
    · push_neg at hm
      exact ⟨_, list_page_small ns opts now st hany hm⟩

theorem C7_lenient_cursor_witness :
    ∃ r, list "n" ⟨some 1, some "!!!", none⟩ 0
      [(⟨"n", "a", "v", "application/json", 1, none, 0⟩ : Entry),
       ⟨"n", "b", "v", "application/json", 1, none, 0⟩] = .ok r :=
  C7_lenient_cursor "n" ⟨some 1, some "!!!", none⟩ 0
    [⟨"n", "a", "v", "application/json", 1, none, 0⟩,
     ⟨"n", "b", "v", "application/json", 1, none, 0⟩] (by decide)

/-- C7, counterexample to the claim as stated: the cursor `"!!!"` cannot
encode any boundary key (no character of it is in the base64 alphabet; it
decodes to `""`), yet `list` does not fail — it silently proceeds and
returns the same first page (the key `"a"`, already yielded by the
cursor-less call), duplicating an unrelated key instead of raising an
`INVALID_CURSOR` error. -/
theorem C7_lenient_cursor_counterexample :
    decodeCursor "!!!" = "" ∧
    list "n" ⟨some 1, some "!!!", none⟩ 0
      [(⟨"n", "a", "v", "application/json", 1, none, 0⟩ : Entry),
       ⟨"n", "b", "v", "application/json", 1, none, 0⟩] =
      .ok ⟨["a"], some "YQ=="⟩ ∧
    list "n" ⟨some 1, none, none⟩ 0
      [(⟨"n", "a", "v", "application/json", 1, none, 0⟩ : Entry),
       ⟨"n", "b", "v", "application/json", 1, none, 0⟩] =
      .ok ⟨["a"], some "YQ=="⟩ := by
  decide

/-! ### Zero limit and the expired-row list bug -/

/-- C10: with an explicit `limit: 0` and at least one live key matching the
query, `list` throws while building the next cursor: the zero limit is not
replaced by the default page size (JS destructuring defaults apply only to
`undefined`), `limit + 1 = 1` row is fetched, `hasMore` is true, the page
`keys` slice is empty, and `Buffer.from(keys[keys.length - 1])` receives
`undefined` and raises a `TypeError`. -/
theorem C10_zero_limit (ns : String) (now : Nat) (st : Store)
    (hmem : ∃ e, e ∈ st ∧ e.ns = ns)
    (hnoexp : ∀ e ∈ st, e.ns = ns → e.expired now = false) :
    list ns ⟨some 0, none, none⟩ now st = .error .cursorTypeError := by
  apply list_page_zero ns none none now st (any_expired_false hnoexp)
  show 1 ≤ (queryKeys st ns none "").length
  rw [queryKeys_empty_cursor]
  obtain ⟨e, he, hns⟩ := hmem
  have hm : e.key ∈ nsKeys st ns none := nsKeys_mem.mpr ⟨e, he, hns, rfl, rfl⟩
  have h1 := List.length_pos.mpr (List.ne_nil_of_mem hm)
  omega

theorem C10_zero_limit_witness :
    list "n" ⟨some 0, none, none⟩ 0
      [(⟨"n", "a", "v", "application/json", 1, none, 0⟩ : Entry)] =
      .error .cursorTypeError :=
  C10_zero_limit "n" 0 [⟨"n", "a", "v", "application/json", 1, none, 0⟩]
    ⟨⟨"n", "a", "v", "application/json", 1, none, 0⟩, by decide, rfl⟩
    (by decide)

/-- C3: evaluation at the failing input of the expired-row `list` bug.  The
store holds the live key `"a"` and the physically present expired row `"b"`
(expired at time 2000).  `get` on `"b"` correctly returns absent, but `list`
returns an empty page with a null cursor instead of `["a"]`: the expired
row does not merely get excluded — by the mis-correlated `NOT EXISTS`
subquery (`key = kv.key` is a tautology over the subquery's own `kv` row) it
suppresses the whole page, so the expired key's presence does affect limit
and cursor accounting, contradicting the claim. -/
theorem C3_expired_list_exclusion :
    (get idCodec "n" "b" {} 2000
      [(⟨"n", "a", "v", "application/json", 1, none, 0⟩ : Entry),
       ⟨"n", "b", "v", "application/json", 1, some 1000, 0⟩]).1 = none ∧
    list "n" ⟨some 10, none, none⟩ 2000
      [(⟨"n", "a", "v", "application/json", 1, none, 0⟩ : Entry),
       ⟨"n", "b", "v", "application/json", 1, some 1000, 0⟩] = .ok ⟨[], none⟩ ∧
    (⟨"n", "a", "v", "application/json", 1, none, 0⟩ : Entry).expired 2000 = false := by
  decide

end KVModel
